import Mathlib

/-!
Verification development for the monkey interpreter
(github.com/vancanhuit/monkey): a shallow embedding of the token model,
AST, runtime object model, environment chain, tree-walking evaluator and
Pratt parser, with theorems settling the specification claims.

Go machine integers (int64) are modelled as `Int` with explicit wrapping
(`wrap64`); Go runtime panics (integer divide by zero, index out of
range, nil dereference) are modelled as an explicit `panic` outcome of
evaluation, distinct from Monkey `Error` objects, which are ordinary
values.  Evaluation is indexed by fuel (`Nat`); `timeout` marks fuel
exhaustion and is an artifact of the embedding, not a behaviour of the
source.
-/

namespace Monkey

/-! ## Token model (internal/token/token.go) -/

abbrev TokenType := String

structure Token where
  type : TokenType
  literal : String
  deriving DecidableEq

namespace token

def EOF : TokenType := "EOF"
def Illegal : TokenType := "ILLEGAL"
def Identifier : TokenType := "IDENTIFIER"
def Integer : TokenType := "INTEGER"
def StringTok : TokenType := "STRING"
def Assign : TokenType := "="
def Plus : TokenType := "+"
def Minus : TokenType := "-"
def Bang : TokenType := "!"
def Asterisk : TokenType := "*"
def Slash : TokenType := "/"
def LessThan : TokenType := "<"
def GreaterThan : TokenType := ">"
def Comma : TokenType := ","
def Semicolon : TokenType := ";"
def Colon : TokenType := ":"
def LeftParen : TokenType := "("
def RightParen : TokenType := ")"
def LeftBrace : TokenType := "\x7b"
def RightBrace : TokenType := "\x7d"
def LeftBracket : TokenType := "["
def RightBracket : TokenType := "]"
def Function : TokenType := "FUNCTION"
def Let : TokenType := "LET"
def Return : TokenType := "RETURN"
def If : TokenType := "IF"
def Else : TokenType := "ELSE"
def TrueTok : TokenType := "TRUE"
def FalseTok : TokenType := "FALSE"
def Equal : TokenType := "=="
def NotEqual : TokenType := "!="

/-- keywords table of token.go. -/
def LookupIdentifier (identifier : String) : TokenType :=
  if identifier = "fn" then Function
  else if identifier = "let" then Let
  else if identifier = "if" then If
  else if identifier = "else" then Else
  else if identifier = "return" then Return
  else if identifier = "true" then TrueTok
  else if identifier = "false" then FalseTok
  else Identifier

end token

/-! ## AST (internal/ast/ast.go)

Go expression/statement fields hold interface pointers that may be nil
(the parser returns nil sub-expressions on syntax errors), so every
child expression position is an `Option Expr`.  A `BlockStatement` is
its statement list; `Program` is represented by the `Node.program`
case of the dispatch type below. -/

mutual

inductive Expr where
  | identifier (value : String)
  | integerLiteral (value : Int)
  | stringLiteral (value : String)
  | boolean (value : Bool)
  | prefixExpr (operator : String) (right : Option Expr)
  | infixExpr (operator : String) (left : Option Expr) (right : Option Expr)
  | ifExpr (condition : Option Expr)
      (consequence : List Stmt) (alternative : Option (List Stmt))
  | functionLiteral (parameters : List String) (body : List Stmt)
  | callExpr (function : Option Expr) (arguments : List (Option Expr))
  | arrayLiteral (elements : List (Option Expr))
  | indexExpr (left : Option Expr) (index : Option Expr)
  | hashLiteral (pairs : List (Option Expr × Option Expr))

inductive Stmt where
  | letStmt (name : String) (value : Option Expr)
  | returnStmt (value : Option Expr)
  | exprStmt (expression : Option Expr)
  | blockStmt (statements : List Stmt)

end

/-- Dispatch type of the evaluator: `Eval` receives a Program, a
Statement or an Expression through the one `ast.Node` interface. -/
inductive Node where
  | program (statements : List Stmt)
  | stmt (s : Stmt)
  | expr (e : Expr)

/-! ## Machine integers

Go `int64` arithmetic is two's-complement and wraps on overflow;
division truncates toward zero and `MinInt64 / -1` wraps. -/

def wrap64 (n : Int) : Int := (n + 2 ^ 63) % 2 ^ 64 - 2 ^ 63

/-- The `uint64(v)` conversion of object.go's integer HashKey. -/
def uint64OfInt (v : Int) : Nat := (v % 2 ^ 64).toNat

/-! ## Runtime object model (internal/object/object.go) -/

def IntegerObj : String := "INTEGER"
def BooleanObj : String := "BOOLEAN"
def NullObj : String := "NULL"
def ReturnValueObj : String := "RETURN_VALUE"
def ErrorObj : String := "ERROR"
def FunctionObj : String := "FUNCTION"
def StringObj : String := "STRING"
def BuiltinObj : String := "BUILTIN"
def ArrayObj : String := "ARRAY"
def HashObj : String := "HASH"

structure HashKey where
  type : String
  value : Nat
  deriving DecidableEq

/-- Runtime values.  Go `object.Object` interface values may be nil, so
object positions that can hold nil are `Option Obj`.  A `function`
holds its captured environment as an index into the environment store
(capture by shared reference).  A `hash` carries its Go map as an
association list from `HashKey` to the stored `HashPair` (key object,
value object). -/
inductive Obj where
  | integer (value : Int)
  | boolean (value : Bool)
  | null
  | returnValue (value : Option Obj)
  | error (message : String)
  | function (parameters : List String) (body : List Stmt) (env : Nat)
  | str (value : String)
  | builtin (name : String)
  | array (elements : List (Option Obj))
  | hash (pairs : List (HashKey × Obj × Option Obj))

/-- `Object.Type()` of object.go. -/
def objType : Obj → String
  | .integer _ => IntegerObj
  | .boolean _ => BooleanObj
  | .null => NullObj
  | .returnValue _ => ReturnValueObj
  | .error _ => ErrorObj
  | .function _ _ _ => FunctionObj
  | .str _ => StringObj
  | .builtin _ => BuiltinObj
  | .array _ => ArrayObj
  | .hash _ => HashObj

/-! FNV-1a 64-bit over the UTF-8 bytes of a string (hash/fnv, used by
`String.HashKey`). -/

def utf8Bytes (c : Char) : List Nat :=
  let n := c.toNat
  if n < 128 then [n]
  else if n < 2048 then [192 + n / 64, 128 + n % 64]
  else if n < 65536 then
    [224 + n / 4096, 128 + n / 64 % 64, 128 + n % 64]
  else
    [240 + n / 262144, 128 + n / 4096 % 64, 128 + n / 64 % 64, 128 + n % 64]

def fnv1aStep (h b : Nat) : Nat := Nat.xor h b * 1099511628211 % 2 ^ 64

def fnv1a64 (s : String) : Nat :=
  s.toList.foldl (fun h c => (utf8Bytes c).foldl fnv1aStep h) 14695981039346656037

/-- `HashKey()` of the three hashable object kinds; `none` for a value
that does not implement `object.Hashable`. -/
def hashKeyOf : Obj → Option HashKey
  | .integer v => some ⟨IntegerObj, uint64OfInt v⟩
  | .boolean b => some ⟨BooleanObj, if b then 1 else 0⟩
  | .str s => some ⟨StringObj, fnv1a64 s⟩
  | _ => none

/-- Go map lookup `hashObject.Pairs[k]`. -/
def hashLookup (k : HashKey) : List (HashKey × Obj × Option Obj) → Option (Obj × Option Obj)
  | [] => none
  | (k', p) :: rest => if k' = k then some p else hashLookup k rest

/-- Go map assignment `pairs[k] = pair` (replace or add). -/
def hashInsert (k : HashKey) (p : Obj × Option Obj) :
    List (HashKey × Obj × Option Obj) → List (HashKey × Obj × Option Obj)
  | [] => [(k, p)]
  | (k', p') :: rest =>
    if k' = k then (k, p) :: rest else (k', p') :: hashInsert k p rest

/-! ## Environment (internal/object/environment.go)

Modelled from the spec: the file defining `object.Environment`,
`NewEnvironment`, `NewEnclosedEnvironment`, `Get` and `Set` is not part
of the provided sources (only its callers are); §4.3 of the spec pins
its behaviour: a mutable name→value frame plus an optional parent
reference, `Get` searching the local frame then the parent chain,
`Set` mutating only the local frame, `newEnclosed(parent)` creating a
fresh empty frame whose parent is the given environment.  Shared
mutable frames are embedded as a store (list) of frames addressed by
index; a parent reference is an index into the same store. -/

structure Environment where
  store : List (String × Option Obj)
  outer : Option Nat

abbrev EnvStore := List Environment

/-- Frame-local map update (Go map assignment semantics). -/
def frameSet (name : String) (val : Option Obj) :
    List (String × Option Obj) → List (String × Option Obj)
  | [] => [(name, val)]
  | (n, v) :: rest =>
    if n = name then (name, val) :: rest else (n, v) :: frameSet name val rest

/-- Frame-local map lookup. -/
def frameGet (name : String) : List (String × Option Obj) → Option (Option Obj)
  | [] => none
  | (n, v) :: rest => if n = name then some v else frameGet name rest

/-- `Environment.Get`: local frame first, then the parent chain.  The
evaluator only ever creates a frame whose parent index is strictly
smaller than its own, so a chain walk from frame `ref` takes at most
`ref + 1` steps; the extra fuel argument makes the walk total on
arbitrary stores (where it answers not-found once exhausted). -/
def envGetF (st : EnvStore) : Nat → Nat → String → Option (Option Obj)
  | 0, _, _ => none
  | fuel + 1, ref, name =>
    match st[ref]? with
    | none => none
    | some env =>
      match frameGet name env.store with
      | some v => some v
      | none =>
        match env.outer with
        | none => none
        | some o => envGetF st fuel o name

def envGet (st : EnvStore) (ref : Nat) (name : String) : Option (Option Obj) :=
  envGetF st (ref + 1) ref name

/-- `Environment.Set`: mutate the local frame only. -/
def envSet (st : EnvStore) (ref : Nat) (name : String) (val : Option Obj) : EnvStore :=
  match st[ref]? with
  | none => st
  | some env => st.set ref { env with store := frameSet name val env.store }

/-- `object.NewEnclosedEnvironment`: fresh empty frame whose parent is
`outer`; returns the new frame's reference and the grown store. -/
def newEnclosedEnvironment (st : EnvStore) (outer : Nat) : Nat × EnvStore :=
  (st.length, st ++ [⟨[], some outer⟩])

/-- `object.NewEnvironment`: the store holding one global frame. -/
def newEnvironment : EnvStore := [⟨[], none⟩]

/-! ## Evaluator: pure helpers (internal/evaluator/evaluator.go)

`PRes` is the outcome of a helper that returns an `object.Object` in
Go: either that object (possibly nil) or a Go runtime panic. -/

inductive PRes where
  | ok (value : Option Obj)
  | panic (message : String)

def nilDeref : String := "runtime error: invalid memory address or nil pointer dereference"

def divideByZero : String := "runtime error: integer divide by zero"

def indexOutOfRange : String := "runtime error: index out of range"

def isError : Option Obj → Bool
  | some (.error _) => true
  | _ => false

/-- `isTruthy`: Go compares against the `Null`/`True`/`False` singletons;
every boolean or null the evaluator produces is one of those singletons,
so the comparison is by value.  A nil object falls to the default
branch and is truthy. -/
def isTruthy : Option Obj → Bool
  | some .null => false
  | some (.boolean b) => b
  | _ => true

def nativeBoolToBooleanObject (input : Bool) : Obj := .boolean input

/-- `evalBangOperatorExpression` (singleton comparisons, as `isTruthy`).
A nil operand falls to the default branch and yields `False`. -/
def evalBangOperatorExpression : Option Obj → Obj
  | some (.boolean true) => .boolean false
  | some (.boolean false) => .boolean true
  | some .null => .boolean true
  | _ => .boolean false

/-- `evalMinusPrefixOperatorExpression`; calling `.Type()` on a nil
operand is a nil-pointer panic. -/
def evalMinusPrefixOperatorExpression : Option Obj → PRes
  | none => .panic nilDeref
  | some o =>
    if objType o = IntegerObj then
      match o with
      | .integer v => .ok (some (.integer (wrap64 (-v))))
      | _ => .panic "interface conversion"
    else .ok (some (.error s!"unknown operator: -{objType o}"))

/-- `evalPrefixExpression`. -/
def evalPrefixExpression (operator : String) (right : Option Obj) : PRes :=
  if operator = "!" then .ok (some (evalBangOperatorExpression right))
  else if operator = "-" then evalMinusPrefixOperatorExpression right
  else
    match right with
    | none => .panic nilDeref
    | some r => .ok (some (.error s!"unknown operator: {operator}{objType r}"))

/-- `evalIntegerInfixExpression`: both operands are integer objects
(guaranteed by the caller's type test); `+ - *` wrap, `/` truncates
toward zero and panics on a zero divisor (Go integer division). -/
def evalIntegerInfixExpression (operator : String) (left right : Obj) : PRes :=
  match left, right with
  | .integer leftValue, .integer rightValue =>
    if operator = "+" then .ok (some (.integer (wrap64 (leftValue + rightValue))))
    else if operator = "-" then .ok (some (.integer (wrap64 (leftValue - rightValue))))
    else if operator = "*" then .ok (some (.integer (wrap64 (leftValue * rightValue))))
    else if operator = "/" then
      if rightValue = 0 then .panic divideByZero
      else .ok (some (.integer (wrap64 (Int.tdiv leftValue rightValue))))
    else if operator = "<" then .ok (some (nativeBoolToBooleanObject (leftValue < rightValue)))
    else if operator = ">" then .ok (some (nativeBoolToBooleanObject (leftValue > rightValue)))
    else if operator = "==" then .ok (some (nativeBoolToBooleanObject (leftValue = rightValue)))
    else if operator = "!=" then .ok (some (nativeBoolToBooleanObject (leftValue ≠ rightValue)))
    else .ok (some (.error s!"unknown operator: {objType left} {operator} {objType right}"))
  | _, _ => .panic "interface conversion"

/-- `evalStringInfixExpression`. -/
def evalStringInfixExpression (operator : String) (left right : Obj) : PRes :=
  match left, right with
  | .str leftVal, .str rightVal =>
    if operator ≠ "+" then
      .ok (some (.error s!"unknown operator: {objType left} {operator} {objType right}"))
    else .ok (some (.str (leftVal ++ rightVal)))
  | _, _ => .panic "interface conversion"

/-- Go `left == right` on two non-nil objects reaching the identity
branches of `evalInfixExpression`: pointer equality.  The only objects
shared by construction are the `True`/`False`/`Null` singletons, which
compare by value; distinct allocations compare unequal. -/
def singletonEq : Obj → Obj → Bool
  | .boolean a, .boolean b => a = b
  | .null, .null => true
  | _, _ => false

/-- `evalInfixExpression`: the Go switch evaluates its case conditions
in order with short-circuit `&&`, so `.Type()` is called on a nil
operand exactly when the earlier cases fall through to a condition
that inspects it. -/
def evalInfixExpression (operator : String) (left right : Option Obj) : PRes :=
  match left with
  | none => .panic nilDeref
  | some l =>
    match right with
    | none =>
      if objType l = IntegerObj then .panic nilDeref
      else if objType l = StringObj then .panic nilDeref
      else if operator = "==" then .ok (some (nativeBoolToBooleanObject false))
      else if operator = "!=" then .ok (some (nativeBoolToBooleanObject true))
      else .panic nilDeref
    | some r =>
      if objType l = IntegerObj ∧ objType r = IntegerObj then
        evalIntegerInfixExpression operator l r
      else if objType l = StringObj ∧ objType r = StringObj then
        evalStringInfixExpression operator l r
      else if operator = "==" then .ok (some (nativeBoolToBooleanObject (singletonEq l r)))
      else if operator = "!=" then .ok (some (nativeBoolToBooleanObject (!singletonEq l r)))
      else if objType l ≠ objType r then
        .ok (some (.error s!"type mismatch: {objType l} {operator} {objType r}"))
      else
        .ok (some (.error s!"unknown operator: {objType l} {operator} {objType r}"))

/-- `evalArrayIndexExpression`: out of range yields the `Null`
singleton, in range yields the stored element (which may be nil). -/
def evalArrayIndexExpression (elements : List (Option Obj)) (idx : Int) : Option Obj :=
  if idx < 0 ∨ idx > (elements.length : Int) - 1 then some .null
  else (elements.get? idx.toNat).join

/-- `evalHashIndexExpression`. -/
def evalHashIndexExpression (pairs : List (HashKey × Obj × Option Obj))
    (index : Option Obj) : PRes :=
  match index with
  | none => .panic nilDeref
  | some i =>
    match hashKeyOf i with
    | none => .ok (some (.error s!"unusable as hash key: {objType i}"))
    | some k =>
      match hashLookup k pairs with
      | none => .ok (some .null)
      | some (_, v) => .ok v

/-- `evalIndexExpression`. -/
def evalIndexExpression (left index : Option Obj) : PRes :=
  match left with
  | none => .panic nilDeref
  | some l =>
    match l with
    | .array elements =>
      match index with
      | none => .panic nilDeref
      | some i =>
        match i with
        | .integer idx => .ok (evalArrayIndexExpression elements idx)
        | _ => .ok (some (.error s!"index operator not supported: {objType l}"))
    | .hash pairs => evalHashIndexExpression pairs index
    | _ => .ok (some (.error s!"index operator not supported: {objType l}"))

/-- `unwrapReturnValue`. -/
def unwrapReturnValue : Option Obj → Option Obj
  | some (.returnValue v) => v
  | o => o

/-! ## Built-ins (internal/evaluator/builtins.go) -/

/-- The `len` builtin's native procedure. -/
def lenBuiltin (args : List (Option Obj)) : PRes :=
  if args.length ≠ 1 then
    .ok (some (.error s!"wrong number of arguments. got={args.length}, want=1"))
  else
    match args.headD none with
    | some (.str s) => .ok (some (.integer (s.utf8ByteSize : Int)))
    | some o => .ok (some (.error s!"argument to `len` not supported, got {objType o}"))
    | none => .panic nilDeref

/-- The builtin registry (`builtins` map). -/
def builtins (name : String) : Option Obj :=
  if name = "len" then some (.builtin "len") else none

/-! ## Evaluator: Eval and its stateful helpers

`EvalRes` is the outcome of `Eval`: a returned object (possibly nil)
together with the environment store after any `Set` side effects, a Go
runtime panic, or fuel exhaustion.  The stateful helpers of
evaluator.go receive the recursive `Eval` as an explicit function
argument, so that `Eval` itself is structurally recursive on fuel. -/

inductive EvalRes where
  | ok (value : Option Obj) (st : EnvStore)
  | panic (message : String)
  | timeout

def PRes.toEval : PRes → EnvStore → EvalRes
  | .ok v, st => .ok v st
  | .panic m, _ => .panic m

/-- `evalProgram`: run the statements in order, short-circuiting on a
`ReturnValue` (unwrapped) or an `Error`; the accumulator is the last
statement's result (`nil` before the first statement runs). -/
def evalProgram (ev : Stmt → EnvStore → EvalRes) :
    List Stmt → Option Obj → EnvStore → EvalRes
  | [], result, st => .ok result st
  | statement :: rest, _, st =>
    match ev statement st with
    | .ok result st' =>
      match result with
      | some (.returnValue v) => .ok v st'
      | some (.error m) => .ok (some (.error m)) st'
      | r => evalProgram ev rest r st'
    | r => r

/-- `evalBlockStatement`: as `evalProgram` but the `ReturnValue` is
returned still wrapped. -/
def evalBlockStatement (ev : Stmt → EnvStore → EvalRes) :
    List Stmt → Option Obj → EnvStore → EvalRes
  | [], result, st => .ok result st
  | statement :: rest, _, st =>
    match ev statement st with
    | .ok result st' =>
      match result with
      | some r =>
        if objType r = ReturnValueObj ∨ objType r = ErrorObj then .ok (some r) st'
        else evalBlockStatement ev rest (some r) st'
      | none => evalBlockStatement ev rest none st'
    | r => r

/-- `evalIdentifier`: environment chain first, then the builtin
registry, else an error object. -/
def evalIdentifier (name : String) (env : Nat) (st : EnvStore) : EvalRes :=
  match envGet st env name with
  | some val => .ok val st
  | none =>
    match builtins name with
    | some b => .ok (some b) st
    | none => .ok (some (.error s!"identifier not found: {name}")) st

/-- Outcome of `evalExpressions`: a list of evaluated arguments. -/
inductive ListRes where
  | ok (objs : List (Option Obj)) (st : EnvStore)
  | panic (message : String)
  | timeout

/-- `evalExpressions`: evaluate left to right, short-circuiting to the
single-element list `[err]` on the first error. -/
def evalExpressions (ev : Option Expr → EnvStore → EvalRes) :
    List (Option Expr) → List (Option Obj) → EnvStore → ListRes
  | [], result, st => .ok result st
  | expr :: rest, result, st =>
    match ev expr st with
    | .ok evaluated st' =>
      if isError evaluated then .ok [evaluated] st'
      else evalExpressions ev rest (result ++ [evaluated]) st'
    | .panic m => .panic m
    | .timeout => .timeout

/-- Outcome of `extendFunctionEnv`: the fresh frame's reference, or the
index-out-of-range panic raised by `args[i]` when the evaluated
argument list is shorter than the parameter list. -/
inductive ExtendRes where
  | ok (ref : Nat) (st : EnvStore)
  | panic (message : String)

/-- The `for i, p := range fn.Parameters { env.Set(p.Value, args[i]) }`
loop of `extendFunctionEnv`: parameters are bound positionally; extra
arguments are ignored; a missing argument makes `args[i]` fault. -/
def bindParameters (ref : Nat) :
    List String → List (Option Obj) → EnvStore → ExtendRes
  | [], _, st => .ok ref st
  | _ :: _, [], _ => .panic indexOutOfRange
  | p :: ps, a :: rest, st => bindParameters ref ps rest (envSet st ref p a)

/-- `extendFunctionEnv`. -/
def extendFunctionEnv (parameters : List String) (fnEnv : Nat)
    (args : List (Option Obj)) (st : EnvStore) : ExtendRes :=
  match newEnclosedEnvironment st fnEnv with
  | (ref, st') => bindParameters ref parameters args st'

/-- `applyFunction`: user function (extend environment, evaluate body,
unwrap a `ReturnValue`), builtin (the registry holds only `len`), a
non-callable object (error), or nil (`fn.Type()` panics). -/
def applyFunction (evBody : List Stmt → Nat → EnvStore → EvalRes)
    (fn : Option Obj) (args : List (Option Obj)) (st : EnvStore) : EvalRes :=
  match fn with
  | some (.function parameters body fnEnv) =>
    match extendFunctionEnv parameters fnEnv args st with
    | .ok ref st' =>
      match evBody body ref st' with
      | .ok evaluated st'' => .ok (unwrapReturnValue evaluated) st''
      | r => r
    | .panic m => .panic m
  | some (.builtin _) => (lenBuiltin args).toEval st
  | some f => .ok (some (.error s!"not a function: {objType f}")) st
  | none => .panic nilDeref

/-- `evalIfExpression` (the consequence/alternative blocks go back
through `Eval`'s `BlockStatement` case). -/
def evalIfExpression (ev : Option Node → EnvStore → EvalRes)
    (condition : Option Expr) (consequence : List Stmt)
    (alternative : Option (List Stmt)) (st : EnvStore) : EvalRes :=
  match ev (condition.map Node.expr) st with
  | .ok c st' =>
    if isError c then .ok c st'
    else if isTruthy c then ev (some (.stmt (.blockStmt consequence))) st'
    else
      match alternative with
      | some alt => ev (some (.stmt (.blockStmt alt))) st'
      | none => .ok (some .null) st'
  | r => r

/-- `evalHashLiteral`: evaluate each key and value in order; a
non-hashable key is an error; a nil key makes the error message's
`key.Type()` fault. -/
def evalHashLiteral (ev : Option Expr → EnvStore → EvalRes) :
    List (Option Expr × Option Expr) →
    List (HashKey × Obj × Option Obj) → EnvStore → EvalRes
  | [], pairs, st => .ok (some (.hash pairs)) st
  | (keyNode, valueNode) :: rest, pairs, st =>
    match ev keyNode st with
    | .ok key st1 =>
      if isError key then .ok key st1
      else
        match key with
        | none => .panic nilDeref
        | some k =>
          match hashKeyOf k with
          | none => .ok (some (.error s!"unusable as hash key: {objType k}")) st1
          | some hashed =>
            match ev valueNode st1 with
            | .ok value st2 =>
              if isError value then .ok value st2
              else evalHashLiteral ev rest (hashInsert hashed (k, value) pairs) st2
            | r => r
    | r => r

/-- A nil child expression handed to `Eval` is a nil `ast.Node`. -/
def exprNode (e : Option Expr) : Option Node := e.map Node.expr

/-- `Eval` of evaluator.go, indexed by fuel.  The case order follows
the Go type switch; a nil node matches no case and yields nil; a
`LetStatement` falls out of the switch after `env.Set` and yields
nil. -/
def Eval : Nat → Option Node → Nat → EnvStore → EvalRes
  | 0, _, _, _ => .timeout
  | Nat.succ f, node, env, st =>
    match node with
    | none => .ok none st
    | some (.program statements) =>
      evalProgram (fun s st => Eval f (some (.stmt s)) env st) statements none st
    | some (.stmt (.exprStmt expression)) => Eval f (exprNode expression) env st
    | some (.expr (.integerLiteral value)) => .ok (some (.integer value)) st
    | some (.expr (.boolean value)) => .ok (some (nativeBoolToBooleanObject value)) st
    | some (.expr (.prefixExpr operator right)) =>
      match Eval f (exprNode right) env st with
      | .ok r st' =>
        if isError r then .ok r st'
        else (evalPrefixExpression operator r).toEval st'
      | r => r
    | some (.expr (.infixExpr operator left right)) =>
      match Eval f (exprNode left) env st with
      | .ok l st1 =>
        if isError l then .ok l st1
        else
          match Eval f (exprNode right) env st1 with
          | .ok r st2 =>
            if isError r then .ok r st2
            else (evalInfixExpression operator l r).toEval st2
          | r => r
      | r => r
    | some (.stmt (.blockStmt statements)) =>
      evalBlockStatement (fun s st => Eval f (some (.stmt s)) env st) statements none st
    | some (.expr (.ifExpr condition consequence alternative)) =>
      evalIfExpression (fun n st => Eval f n env st)
        condition consequence alternative st
    | some (.stmt (.returnStmt value)) =>
      match Eval f (exprNode value) env st with
      | .ok v st' =>
        if isError v then .ok v st'
        else .ok (some (.returnValue v)) st'
      | r => r
    | some (.stmt (.letStmt name value)) =>
      match Eval f (exprNode value) env st with
      | .ok val st' =>
        if isError val then .ok val st'
        else .ok none (envSet st' env name val)
      | r => r
    | some (.expr (.identifier name)) => evalIdentifier name env st
    | some (.expr (.functionLiteral parameters body)) =>
      .ok (some (.function parameters body env)) st
    | some (.expr (.callExpr function arguments)) =>
      match Eval f (exprNode function) env st with
      | .ok fn st1 =>
        if isError fn then .ok fn st1
        else
          match evalExpressions (fun e st => Eval f (exprNode e) env st)
              arguments [] st1 with
          | .ok args st2 =>
            if args.length = 1 ∧ isError (args.headD none) then
              .ok (args.headD none) st2
            else
              applyFunction
                (fun body ref st => Eval f (some (.stmt (.blockStmt body))) ref st)
                fn args st2
          | .panic m => .panic m
          | .timeout => .timeout
      | r => r
    | some (.expr (.stringLiteral value)) => .ok (some (.str value)) st
    | some (.expr (.arrayLiteral elements)) =>
      match evalExpressions (fun e st => Eval f (exprNode e) env st)
          elements [] st with
      | .ok elems st' =>
        if elems.length = 1 ∧ isError (elems.headD none) then
          .ok (elems.headD none) st'
        else .ok (some (.array elems)) st'
      | .panic m => .panic m
      | .timeout => .timeout
    | some (.expr (.indexExpr left index)) =>
      match Eval f (exprNode left) env st with
      | .ok l st1 =>
        if isError l then .ok l st1
        else
          match Eval f (exprNode index) env st1 with
          | .ok i st2 =>
            if isError i then .ok i st2
            else (evalIndexExpression l i).toEval st2
          | r => r
      | r => r
    | some (.expr (.hashLiteral pairs)) =>
      evalHashLiteral (fun e st => Eval f (exprNode e) env st) pairs [] st

/-- Evaluate a whole program in a fresh global environment (the REPL's
use of `Eval`). -/
def runProgram (fuel : Nat) (statements : List Stmt) : EvalRes :=
  Eval fuel (some (.program statements)) 0 newEnvironment

/-! ## Tokenizer

Modelled from the spec: the character-level tokenizer
(`internal/lexer`) is not part of the provided sources; §6 pins its
contract (finite ordered token sequence, stable type tags and literal
text, keyword table, unclassifiable input becomes an `ILLEGAL` token
rather than aborting).  Identifiers are letter/underscore runs looked
up in the keyword table, integer literals are digit runs, `==`/`!=`
are two-character operators, whitespace separates tokens. -/

def isLetterC (c : Char) : Bool :=
  ('a' ≤ c ∧ c ≤ 'z') ∨ ('A' ≤ c ∧ c ≤ 'Z') ∨ c = '_'

def isDigitC (c : Char) : Bool := 48 ≤ c.toNat ∧ c.toNat ≤ 57

def isWhitespaceC (c : Char) : Bool :=
  c = ' ' ∨ c = '\t' ∨ c = '\n' ∨ c = '\r'

def singleCharToken (c : Char) : Option TokenType :=
  if c = '=' then some token.Assign
  else if c = '+' then some token.Plus
  else if c = '-' then some token.Minus
  else if c = '!' then some token.Bang
  else if c = '*' then some token.Asterisk
  else if c = '/' then some token.Slash
  else if c = '<' then some token.LessThan
  else if c = '>' then some token.GreaterThan
  else if c = ',' then some token.Comma
  else if c = ';' then some token.Semicolon
  else if c = ':' then some token.Colon
  else if c = '(' then some token.LeftParen
  else if c = ')' then some token.RightParen
  else if c = '{' then some token.LeftBrace
  else if c = '}' then some token.RightBrace
  else if c = '[' then some token.LeftBracket
  else if c = ']' then some token.RightBracket
  else none

/-- One fuel unit per emitted token or skipped character. -/
def tokenizeChars : Nat → List Char → List Token
  | 0, _ => []
  | _, [] => []
  | fuel + 1, c :: rest =>
    if isWhitespaceC c then tokenizeChars fuel rest
    else if isLetterC c then
      match (c :: rest).span isLetterC with
      | (word, rest') =>
        let literal := String.mk word
        ⟨token.LookupIdentifier literal, literal⟩ :: tokenizeChars fuel rest'
    else if isDigitC c then
      match (c :: rest).span isDigitC with
      | (digits, rest') =>
        ⟨token.Integer, String.mk digits⟩ :: tokenizeChars fuel rest'
    else if c = '=' then
      match rest with
      | '=' :: rest' => ⟨token.Equal, "=="⟩ :: tokenizeChars fuel rest'
      | _ => ⟨token.Assign, "="⟩ :: tokenizeChars fuel rest
    else if c = '!' then
      match rest with
      | '=' :: rest' => ⟨token.NotEqual, "!="⟩ :: tokenizeChars fuel rest'
      | _ => ⟨token.Bang, "!"⟩ :: tokenizeChars fuel rest
    else
      match singleCharToken c with
      | some t => ⟨t, String.mk [c]⟩ :: tokenizeChars fuel rest
      | none => ⟨token.Illegal, String.mk [c]⟩ :: tokenizeChars fuel rest

/-- Tokenize a source string (the lexer's whole output; the parser adds
the trailing `EOF` tokens itself when this list runs out). -/
def lex (input : String) : List Token :=
  tokenizeChars (input.length + 1) input.toList

/-! ## Parser (internal/parser/parser.go)

The provided parser source covers statements, the Pratt expression
loop, call expressions, grouping, if, function literals and string
literals; index and array-literal parsing exists in the repository
only through its tests, so those two handlers and the `[` precedence
entry are modelled from the spec (call/index form the single highest
precedence level, and both are infix handlers keyed on the opening
delimiter).  The prefix/infix registration maps are defunctionalised:
a table entry names the handler, and `parseExpression` dispatches on
the name. -/

def LOWEST : Nat := 1
def EQUALS : Nat := 2
def LESS_GREATER : Nat := 3
def SUM : Nat := 4
def PRODUCT : Nat := 5
/-- Source constant `PREFIX` (unary operators). -/
def UNARY : Nat := 6
def CALL : Nat := 7

/-- `precedences` map.  The `[` entry is modelled from the spec: the
index delimiter sits at the call/index level. -/
def precedences (t : TokenType) : Option Nat :=
  if t = token.Equal then some EQUALS
  else if t = token.NotEqual then some EQUALS
  else if t = token.LessThan then some LESS_GREATER
  else if t = token.GreaterThan then some LESS_GREATER
  else if t = token.Plus then some SUM
  else if t = token.Minus then some SUM
  else if t = token.Slash then some PRODUCT
  else if t = token.Asterisk then some PRODUCT
  else if t = token.LeftParen then some CALL
  else if t = token.LeftBracket then some CALL
  else none

structure ParserState where
  tokens : List Token
  curToken : Token
  peekToken : Token
  errors : List String

/-- `nextToken`: advance the two lookahead cells; the lexer yields
`EOF` tokens forever once its input is consumed. -/
def nextToken (p : ParserState) : ParserState :=
  { p with curToken := p.peekToken,
           peekToken := p.tokens.headD ⟨token.EOF, ""⟩,
           tokens := p.tokens.tail }

/-- `Parser.New`: two `nextToken` calls fill both lookahead cells. -/
def newParser (tokens : List Token) : ParserState :=
  nextToken (nextToken ⟨tokens, ⟨"", ""⟩, ⟨"", ""⟩, []⟩)

def peekPrecedence (p : ParserState) : Nat :=
  (precedences p.peekToken.type).getD LOWEST

def curPrecedence (p : ParserState) : Nat :=
  (precedences p.curToken.type).getD LOWEST

/-- `peekError`: the diagnostic names the token type passed as the
expected one, and the actual peek token type. -/
def peekError (t : TokenType) (p : ParserState) : ParserState :=
  { p with errors :=
      p.errors ++ [s!"expected next token to be {t}, got {p.peekToken.type} instead"] }

def noPrefixParseFnError (t : TokenType) (p : ParserState) : ParserState :=
  { p with errors := p.errors ++ [s!"no prefix parse function for {t} found"] }

/-- Registered handler names for tokens that can start an expression. -/
inductive PrefixFn where
  | parseIdentifier
  | parseIntegerLiteral
  | parsePrefixExpression
  | parseBoolean
  | parseGroupedExpression
  | parseIfExpression
  | parseFunctionLiteral
  | parseStringLiteral
  | parseArrayLiteral

/-- Registered handler names for tokens that can continue an
expression. -/
inductive InfixFn where
  | parseInfixExpression
  | parseCallExpression
  | parseIndexExpression

/-- The `registerPrefix` calls of `New`.  The `[` entry (array
literal) is modelled from the spec. -/
def prefixParseFns (t : TokenType) : Option PrefixFn :=
  if t = token.Identifier then some .parseIdentifier
  else if t = token.Integer then some .parseIntegerLiteral
  else if t = token.Bang then some .parsePrefixExpression
  else if t = token.Minus then some .parsePrefixExpression
  else if t = token.TrueTok then some .parseBoolean
  else if t = token.FalseTok then some .parseBoolean
  else if t = token.LeftParen then some .parseGroupedExpression
  else if t = token.If then some .parseIfExpression
  else if t = token.Function then some .parseFunctionLiteral
  else if t = token.StringTok then some .parseStringLiteral
  else if t = token.LeftBracket then some .parseArrayLiteral
  else none

/-- The `registerInfix` calls of `New`.  The `[` entry (index
expression) is modelled from the spec. -/
def infixParseFns (t : TokenType) : Option InfixFn :=
  if t = token.Plus then some .parseInfixExpression
  else if t = token.Minus then some .parseInfixExpression
  else if t = token.Slash then some .parseInfixExpression
  else if t = token.Asterisk then some .parseInfixExpression
  else if t = token.Equal then some .parseInfixExpression
  else if t = token.NotEqual then some .parseInfixExpression
  else if t = token.LessThan then some .parseInfixExpression
  else if t = token.GreaterThan then some .parseInfixExpression
  else if t = token.LeftParen then some .parseCallExpression
  else if t = token.LeftBracket then some .parseIndexExpression
  else none

/-- `strconv.ParseInt(literal, 0, 64)` restricted to the literals the
tokenizer can produce (non-empty decimal digit runs): base 0 treats a
leading `0` as octal, and a value beyond `MaxInt64` or an invalid
digit is an error (`none`). -/
def digitsVal (base : Nat) : List Char → Option Nat → Option Nat
  | _, none => none
  | [], acc => acc
  | c :: rest, some acc =>
    let d := c.toNat - '0'.toNat
    if d < base then digitsVal base rest (some (acc * base + d))
    else digitsVal base rest none

def maxInt64 : Nat := 2 ^ 63 - 1

def parseIntegerLiteralValue (s : String) : Option Int :=
  match s.toList with
  | [] => none
  | ['0'] => some 0
  | '0' :: rest =>
    match digitsVal 8 rest (some 0) with
    | some n => if n ≤ maxInt64 then some (n : Int) else none
    | none => none
  | l =>
    match digitsVal 10 l (some 0) with
    | some n => if n ≤ maxInt64 then some (n : Int) else none
    | none => none

/-! The recursive parse functions.  Every function consumes one fuel
unit per call; with fuel exhausted a parse yields its failure value,
which a sufficiently large fuel argument (as every theorem below uses)
makes unreachable. -/

mutual

/-- `parseStatement`: dispatch on the leading token. -/
def parseStatement : Nat → ParserState → Option Stmt × ParserState
  | 0, p => (none, p)
  | f + 1, p =>
    if p.curToken.type = token.Let then parseLetStatement f p
    else if p.curToken.type = token.Return then parseReturnStatement f p
    else parseExpressionStatement f p

/-- `parseLetStatement`. -/
def parseLetStatement : Nat → ParserState → Option Stmt × ParserState
  | 0, p => (none, p)
  | f + 1, p =>
    if p.peekToken.type ≠ token.Identifier then (none, peekError token.Identifier p)
    else
      let p := nextToken p
      let name := p.curToken.literal
      if p.peekToken.type ≠ token.Assign then (none, peekError token.Assign p)
      else
        let p := nextToken (nextToken p)
        match parseExpression f LOWEST p with
        | (value, p) =>
          let p := if p.peekToken.type = token.Semicolon then nextToken p else p
          (some (.letStmt name value), p)

/-- `parseReturnStatement`. -/
def parseReturnStatement : Nat → ParserState → Option Stmt × ParserState
  | 0, p => (none, p)
  | f + 1, p =>
    let p := nextToken p
    match parseExpression f LOWEST p with
    | (value, p) =>
      let p := if p.peekToken.type = token.Semicolon then nextToken p else p
      (some (.returnStmt value), p)

/-- `parseExpressionStatement`. -/
def parseExpressionStatement : Nat → ParserState → Option Stmt × ParserState
  | 0, p => (none, p)
  | f + 1, p =>
    match parseExpression f LOWEST p with
    | (expression, p) =>
      let p := if p.peekToken.type = token.Semicolon then nextToken p else p
      (some (.exprStmt expression), p)

/-- `parseExpression`: prefix handler for the current token, then the
precedence-climbing loop. -/
def parseExpression : Nat → Nat → ParserState → Option Expr × ParserState
  | 0, _, p => (none, p)
  | f + 1, precedence, p =>
    match prefixParseFns p.curToken.type with
    | none => (none, noPrefixParseFnError p.curToken.type p)
    | some fn =>
      match runPrefixFn f fn p with
      | (leftExpr, p) => parseExpressionLoop f precedence leftExpr p

/-- The `for p.peekToken.Type != token.Semicolon && precedence <
p.peekPrecedence()` loop of `parseExpression`. -/
def parseExpressionLoop :
    Nat → Nat → Option Expr → ParserState → Option Expr × ParserState
  | 0, _, leftExpr, p => (leftExpr, p)
  | f + 1, precedence, leftExpr, p =>
    if p.peekToken.type ≠ token.Semicolon ∧ precedence < peekPrecedence p then
      match infixParseFns p.peekToken.type with
      | none => (leftExpr, p)
      | some fn =>
        let p := nextToken p
        match runInfixFn f fn leftExpr p with
        | (leftExpr, p) => parseExpressionLoop f precedence leftExpr p
    else (leftExpr, p)

/-- Dispatch on a registered prefix handler name. -/
def runPrefixFn : Nat → PrefixFn → ParserState → Option Expr × ParserState
  | 0, _, p => (none, p)
  | _ + 1, .parseIdentifier, p => (some (.identifier p.curToken.literal), p)
  | _ + 1, .parseIntegerLiteral, p =>
    (match parseIntegerLiteralValue p.curToken.literal with
     | some value => (some (.integerLiteral value), p)
     | none =>
       (none, { p with errors :=
          p.errors ++ [s!"could not parse \"{p.curToken.literal}\" as integer"] }))
  | f + 1, .parsePrefixExpression, p =>
    let operator := p.curToken.literal
    let p := nextToken p
    (match parseExpression f UNARY p with
     | (right, p) => (some (.prefixExpr operator right), p))
  | _ + 1, .parseBoolean, p => (some (.boolean (p.curToken.type = token.TrueTok)), p)
  | f + 1, .parseGroupedExpression, p => parseGroupedExpression f p
  | f + 1, .parseIfExpression, p => parseIfExpression f p
  | f + 1, .parseFunctionLiteral, p => parseFunctionLiteral f p
  | _ + 1, .parseStringLiteral, p => (some (.stringLiteral p.curToken.literal), p)
  | f + 1, .parseArrayLiteral, p => parseArrayLiteral f p

/-- Dispatch on a registered infix handler name. -/
def runInfixFn :
    Nat → InfixFn → Option Expr → ParserState → Option Expr × ParserState
  | 0, _, _, p => (none, p)
  | f + 1, .parseInfixExpression, left, p =>
    let operator := p.curToken.literal
    let precedence := curPrecedence p
    let p := nextToken p
    (match parseExpression f precedence p with
     | (right, p) => (some (.infixExpr operator left right), p))
  | f + 1, .parseCallExpression, function, p =>
    (match parseCallArguments f p with
     | (arguments, p) => (some (.callExpr function (arguments.getD [])), p))
  | f + 1, .parseIndexExpression, left, p => parseIndexExpression f left p

/-- `parseGroupedExpression`.  On a missing `)` the source passes the
peek token's own type to `peekError` (not `token.RightParen`). -/
def parseGroupedExpression : Nat → ParserState → Option Expr × ParserState
  | 0, p => (none, p)
  | f + 1, p =>
    let p := nextToken p
    match parseExpression f LOWEST p with
    | (expr, p) =>
      if p.peekToken.type ≠ token.RightParen then (none, peekError p.peekToken.type p)
      else (expr, nextToken p)

/-- `parseIfExpression`. -/
def parseIfExpression : Nat → ParserState → Option Expr × ParserState
  | 0, p => (none, p)
  | f + 1, p =>
    if p.peekToken.type ≠ token.LeftParen then (none, peekError token.LeftParen p)
    else
      let p := nextToken (nextToken p)
      match parseExpression f LOWEST p with
      | (condition, p) =>
        if p.peekToken.type ≠ token.RightParen then (none, peekError token.RightParen p)
        else
          let p := nextToken p
          if p.peekToken.type ≠ token.LeftBrace then (none, peekError token.LeftBrace p)
          else
            let p := nextToken p
            match parseBlockStatement f p with
            | (consequence, p) =>
              if p.peekToken.type = token.Else then
                let p := nextToken p
                if p.peekToken.type ≠ token.LeftBrace then
                  (none, peekError token.LeftBrace p)
                else
                  let p := nextToken p
                  match parseBlockStatement f p with
                  | (alternative, p) =>
                    (some (.ifExpr condition consequence (some alternative)), p)
              else (some (.ifExpr condition consequence none), p)

/-- `parseBlockStatement`: collect statements until `}` or `EOF`. -/
def parseBlockStatement : Nat → ParserState → List Stmt × ParserState
  | 0, p => ([], p)
  | f + 1, p => parseBlockLoop f [] (nextToken p)

/-- The statement loop of `parseBlockStatement`. -/
def parseBlockLoop : Nat → List Stmt → ParserState → List Stmt × ParserState
  | 0, acc, p => (acc, p)
  | f + 1, acc, p =>
    if p.curToken.type ≠ token.RightBrace ∧ p.curToken.type ≠ token.EOF then
      match parseStatement f p with
      | (some stmt, p) => parseBlockLoop f (acc ++ [stmt]) (nextToken p)
      | (none, p) => parseBlockLoop f acc (nextToken p)
    else (acc, p)

/-- `parseFunctionLiteral`.  A failed parameter list leaves a nil
slice, which ranges like an empty one. -/
def parseFunctionLiteral : Nat → ParserState → Option Expr × ParserState
  | 0, p => (none, p)
  | f + 1, p =>
    if p.peekToken.type ≠ token.LeftParen then (none, peekError token.LeftParen p)
    else
      let p := nextToken p
      match parseFunctionParameters f p with
      | (parameters, p) =>
        if p.peekToken.type ≠ token.LeftBrace then (none, peekError token.LeftBrace p)
        else
          let p := nextToken p
          match parseBlockStatement f p with
          | (body, p) => (some (.functionLiteral (parameters.getD []) body), p)

/-- `parseFunctionParameters`. -/
def parseFunctionParameters :
    Nat → ParserState → Option (List String) × ParserState
  | 0, p => (none, p)
  | f + 1, p =>
    if p.peekToken.type = token.RightParen then (some [], nextToken p)
    else
      let p := nextToken p
      parseFunctionParametersLoop f [p.curToken.literal] p

/-- The comma loop of `parseFunctionParameters`. -/
def parseFunctionParametersLoop :
    Nat → List String → ParserState → Option (List String) × ParserState
  | 0, _, p => (none, p)
  | f + 1, identifiers, p =>
    if p.peekToken.type = token.Comma then
      let p := nextToken (nextToken p)
      parseFunctionParametersLoop f (identifiers ++ [p.curToken.literal]) p
    else if p.peekToken.type ≠ token.RightParen then (none, peekError token.RightParen p)
    else (some identifiers, nextToken p)

/-- `parseCallArguments`. -/
def parseCallArguments :
    Nat → ParserState → Option (List (Option Expr)) × ParserState
  | 0, p => (none, p)
  | f + 1, p =>
    if p.peekToken.type = token.RightParen then (some [], nextToken p)
    else
      let p := nextToken p
      match parseExpression f LOWEST p with
      | (arg, p) => parseCallArgumentsLoop f [arg] p

/-- The comma loop of `parseCallArguments`. -/
def parseCallArgumentsLoop :
    Nat → List (Option Expr) → ParserState →
    Option (List (Option Expr)) × ParserState
  | 0, _, p => (none, p)
  | f + 1, args, p =>
    if p.peekToken.type = token.Comma then
      let p := nextToken (nextToken p)
      match parseExpression f LOWEST p with
      | (arg, p) => parseCallArgumentsLoop f (args ++ [arg]) p
    else if p.peekToken.type ≠ token.RightParen then (none, peekError token.RightParen p)
    else (some args, nextToken p)

/-- Modelled from the spec: array literal parsing (bracketed,
comma-separated expression list; empty allowed), the prefix handler
registered on `[`; missing from the provided parser source, present in
the repository through its tests. -/
def parseArrayLiteral : Nat → ParserState → Option Expr × ParserState
  | 0, p => (none, p)
  | f + 1, p =>
    if p.peekToken.type = token.RightBracket then
      (some (.arrayLiteral []), nextToken p)
    else
      let p := nextToken p
      match parseExpression f LOWEST p with
      | (element, p) => parseArrayElementsLoop f [element] p

/-- Modelled from the spec: the comma loop of array-literal parsing. -/
def parseArrayElementsLoop :
    Nat → List (Option Expr) → ParserState → Option Expr × ParserState
  | 0, _, p => (none, p)
  | f + 1, elements, p =>
    if p.peekToken.type = token.Comma then
      let p := nextToken (nextToken p)
      match parseExpression f LOWEST p with
      | (element, p) => parseArrayElementsLoop f (elements ++ [element]) p
    else if p.peekToken.type ≠ token.RightBracket then
      (none, peekError token.RightBracket p)
    else (some (.arrayLiteral elements), nextToken p)

/-- Modelled from the spec: index-expression parsing (`left[index]`,
expecting the closing bracket), the infix handler registered on `[`;
missing from the provided parser source, present in the repository
through its tests. -/
def parseIndexExpression :
    Nat → Option Expr → ParserState → Option Expr × ParserState
  | 0, _, p => (none, p)
  | f + 1, left, p =>
    let p := nextToken p
    match parseExpression f LOWEST p with
    | (index, p) =>
      if p.peekToken.type ≠ token.RightBracket then
        (none, peekError token.RightBracket p)
      else (some (.indexExpr left index), nextToken p)

end

/-- The statement loop of `ParseProgram`. -/
def parseProgramLoop : Nat → List Stmt → ParserState → List Stmt × ParserState
  | 0, acc, p => (acc, p)
  | f + 1, acc, p =>
    if p.curToken.type ≠ token.EOF then
      match parseStatement f p with
      | (some stmt, p) => parseProgramLoop f (acc ++ [stmt]) (nextToken p)
      | (none, p) => parseProgramLoop f acc (nextToken p)
    else (acc, p)

/-- `ParseProgram` on a token list: the program's statements and the
accumulated diagnostics. -/
def parseTokens (fuel : Nat) (tokens : List Token) : List Stmt × List String :=
  match parseProgramLoop fuel [] (newParser tokens) with
  | (statements, p) => (statements, p.errors)

/-- Lex then parse a source string. -/
def parseSource (fuel : Nat) (input : String) : List Stmt × List String :=
  parseTokens fuel (lex input)

/-- Parse then evaluate a source string in a fresh environment. -/
def run (parseFuel evalFuel : Nat) (input : String) : EvalRes :=
  runProgram evalFuel (parseSource parseFuel input).1

/-! ## Derived notions used by the theorems -/

/-- The frame contents `extendFunctionEnv` builds: parameters bound
positionally, left to right, extra arguments ignored. -/
def boundFrame :
    List String → List (Option Obj) →
    List (String × Option Obj) → List (String × Option Obj)
  | [], _, frame => frame
  | _ :: _, [], frame => frame
  | p :: ps, a :: rest, frame => boundFrame ps rest (frameSet p a frame)

/-- A statement result that aborts a statement sequence
(`evalProgram`/`evalBlockStatement` short-circuit on it). -/
def abrupt : Option Obj → Bool
  | some (.returnValue _) => true
  | some (.error _) => true
  | _ => false

/-- A statement list that runs to completion without any statement
producing a `ReturnValue` or an `Error` (each step records the
evaluator's result and the store it leaves behind). -/
inductive RunsNormally (ev : Stmt → EnvStore → EvalRes) :
    List Stmt → EnvStore → EnvStore → Prop where
  | nil (st : EnvStore) : RunsNormally ev [] st st
  | cons {s : Stmt} {rest : List Stmt} {st st1 st2 : EnvStore} {r : Option Obj}
      (hstep : ev s st = .ok r st1) (hnormal : abrupt r = false)
      (htail : RunsNormally ev rest st1 st2) :
      RunsNormally ev (s :: rest) st st2

/-! Error containment: `errOkObj o` says no `Error` object sits among
the elements of any array or the pairs of any hash inside `o`. -/

mutual

def errOkObj : Obj → Bool
  | .array elements => errOkList elements
  | .hash pairs => errOkPairs pairs
  | .returnValue v => errOkElem v
  | _ => true

def errOkElem : Option Obj → Bool
  | none => true
  | some o => errOkObj o

/-- Array elements and hash values must on top of that not themselves
be `Error` objects. -/
def errOkEntry : Option Obj → Bool
  | some (.error _) => false
  | o => errOkElem o

def errOkList : List (Option Obj) → Bool
  | [] => true
  | o :: rest => errOkEntry o && errOkList rest

def errOkPairs : List (HashKey × Obj × Option Obj) → Bool
  | [] => true
  | (_, k, v) :: rest => errOkObj k && errOkEntry v && errOkPairs rest

end

/-- Every object stored in every environment frame is error-contained. -/
def storeOk (st : EnvStore) : Bool :=
  st.all fun env => env.store.all fun pv => errOkElem pv.2

/-- Every element of an evaluated expression list is error-contained
and not itself an `Error`. -/
def entriesOk (objs : List (Option Obj)) : Prop := ∀ o ∈ objs, errOkEntry o = true

/-- Error containment for the outcome of a pure evaluator helper. -/
def PResOk : PRes → Prop
  | .ok v => errOkElem v = true
  | .panic _ => True

/-- Error containment for an `Eval` outcome: the result value and every
object in the post-store are error-contained. -/
def ResOk : EvalRes → Prop
  | .ok v st => errOkElem v = true ∧ storeOk st = true
  | _ => True

/-- Error containment for an `evalExpressions` outcome: either every
element is a non-`Error` contained object, or the whole list is the
single-element short-circuit `[err]` (which every caller filters before
building an array or binding arguments). -/
def ListResOk : ListRes → Prop
  | .ok objs st => (entriesOk objs ∨ ∃ m, objs = [some (.error m)]) ∧ storeOk st = true
  | _ => True


/-! ## Reference grammar for C5: integer expressions over + - * / and
parentheses

`ASum` is the standard layered expression grammar (sums of products of
factors, with unary minus and grouping at the factor level), with
operator chains kept as explicit left-to-right lists so that
"left-to-right, precedence-respecting" evaluation is literal in
`valS`.  Every integer-expression source string over `+ - * /`,
decimal literals and parentheses is the token rendering (`tokS`) of
exactly one such tree. -/

mutual

inductive AFactor where
  | num (s : List Char)
  | neg (f : AFactor)
  | paren (e : ASum)

/-- A chain of `*`/`/` continuations (`op = true` is `*`). -/
inductive MChain where
  | nilM
  | consM (op : Bool) (f : AFactor) (rs : MChain)

inductive AProd where
  | mkP (first : AFactor) (rest : MChain)

/-- A chain of `+`/`-` continuations (`op = true` is `+`). -/
inductive AChain where
  | nilA
  | consA (op : Bool) (t : AProd) (rs : AChain)

inductive ASum where
  | mkS (first : AProd) (rest : AChain)

end

/-- Decimal value of a digit string (the value `strconv.ParseInt`
yields on a well-formed decimal literal). -/
def dval (s : List Char) : Int := ((digitsVal 10 s (some 0)).getD 0 : Nat)

/-- A legal decimal integer literal: non-empty digits, no leading zero
(which base-0 `ParseInt` would read as octal) unless the literal is
`0` itself, value within int64. -/
def goodNum (s : List Char) : Bool :=
  s ≠ [] && s.all isDigitC && (s = ['0'] || s.head? ≠ some '0') &&
    dval s ≤ (maxInt64 : Int)

def inInt64 (v : Int) : Bool := -(2 ^ 63) ≤ v ∧ v < 2 ^ 63

mutual

def tokF : AFactor → List Token
  | .num s => [⟨token.Integer, String.mk s⟩]
  | .neg f => ⟨token.Minus, "-"⟩ :: tokF f
  | .paren e => ⟨token.LeftParen, "("⟩ :: (tokS e ++ [⟨token.RightParen, ")"⟩])

def tokMChain : MChain → List Token
  | .nilM => []
  | .consM op f rs =>
    (if op then (⟨token.Asterisk, "*"⟩ : Token) else ⟨token.Slash, "/"⟩) ::
      (tokF f ++ tokMChain rs)

def tokP : AProd → List Token
  | .mkP f rs => tokF f ++ tokMChain rs

def tokAChain : AChain → List Token
  | .nilA => []
  | .consA op t rs =>
    (if op then (⟨token.Plus, "+"⟩ : Token) else ⟨token.Minus, "-"⟩) ::
      (tokP t ++ tokAChain rs)

def tokS : ASum → List Token
  | .mkS t rs => tokP t ++ tokAChain rs

end

mutual

/-- Standard left-to-right, precedence-respecting value (mathematical
integers, truncating division). -/
def valF : AFactor → Int
  | .num s => dval s
  | .neg f => -(valF f)
  | .paren e => valS e

def valMChain : Int → MChain → Int
  | acc, .nilM => acc
  | acc, .consM op f rs =>
    valMChain (if op then acc * valF f else Int.tdiv acc (valF f)) rs

def valP : AProd → Int
  | .mkP f rs => valMChain (valF f) rs

def valAChain : Int → AChain → Int
  | acc, .nilA => acc
  | acc, .consA op t rs =>
    valAChain (if op then acc + valP t else acc - valP t) rs

def valS : ASum → Int
  | .mkS t rs => valAChain (valP t) rs

end

mutual

/-- The AST the parser is expected to build: left-nested infix chains. -/
def exprOfF : AFactor → Expr
  | .num s => .integerLiteral (dval s)
  | .neg f => .prefixExpr "-" (some (exprOfF f))
  | .paren e => exprOfS e

def exprOfMChain : Expr → MChain → Expr
  | left, .nilM => left
  | left, .consM op f rs =>
    exprOfMChain (.infixExpr (if op then "*" else "/") (some left) (some (exprOfF f))) rs

def exprOfP : AProd → Expr
  | .mkP f rs => exprOfMChain (exprOfF f) rs

def exprOfAChain : Expr → AChain → Expr
  | left, .nilA => left
  | left, .consA op t rs =>
    exprOfAChain (.infixExpr (if op then "+" else "-") (some left) (some (exprOfP t))) rs

def exprOfS : ASum → Expr
  | .mkS t rs => exprOfAChain (exprOfP t) rs

end

mutual

/-- The last token of a rendering (the parser's `curToken` after
consuming an expression). -/
def lastF : AFactor → Token
  | .num s => ⟨token.Integer, String.mk s⟩
  | .neg f => lastF f
  | .paren _ => ⟨token.RightParen, ")"⟩

def lastMChain : Token → MChain → Token
  | c, .nilM => c
  | _, .consM _ f rs => lastMChain (lastF f) rs

def lastP : AProd → Token
  | .mkP f rs => lastMChain (lastF f) rs

def lastAChain : Token → AChain → Token
  | c, .nilA => c
  | _, .consA _ t rs => lastAChain (lastP t) rs

def lastS : ASum → Token
  | .mkS t rs => lastAChain (lastP t) rs

end

mutual

/-- Parse-side well-formedness: every literal is legal. -/
def wfF : AFactor → Bool
  | .num s => goodNum s
  | .neg f => wfF f
  | .paren e => wfS e

def wfMChain : MChain → Bool
  | .nilM => true
  | .consM _ f rs => wfF f && wfMChain rs

def wfP : AProd → Bool
  | .mkP f rs => wfF f && wfMChain rs

def wfAChain : AChain → Bool
  | .nilA => true
  | .consA _ t rs => wfP t && wfAChain rs

def wfS : ASum → Bool
  | .mkS t rs => wfP t && wfAChain rs

end

mutual

/-- Evaluation-side goodness: no division by zero and every
intermediate value within int64 (so wrapped evaluation agrees with
mathematical arithmetic). -/
def okF : AFactor → Bool
  | .num _ => true
  | .neg f => okF f && inInt64 (-(valF f))
  | .paren e => okS e

def okMChain : Int → MChain → Bool
  | _, .nilM => true
  | acc, .consM op f rs =>
    okF f &&
      (if op then inInt64 (acc * valF f)
       else !(valF f = 0 : Bool) && inInt64 (Int.tdiv acc (valF f))) &&
      okMChain (if op then acc * valF f else Int.tdiv acc (valF f)) rs

def okP : AProd → Bool
  | .mkP f rs => okF f && okMChain (valF f) rs

def okAChain : Int → AChain → Bool
  | _, .nilA => true
  | acc, .consA op t rs =>
    okP t &&
      (if op then inInt64 (acc + valP t) else inInt64 (acc - valP t)) &&
      okAChain (if op then acc + valP t else acc - valP t) rs

def okS : ASum → Bool
  | .mkS t rs => okP t && okAChain (valP t) rs

end

mutual

/-- Fuel bound for parsing/evaluating a rendering. -/
def szF : AFactor → Nat
  | .num _ => 8
  | .neg f => szF f + 8
  | .paren e => szS e + 8

def szMChain : MChain → Nat
  | .nilM => 1
  | .consM _ f rs => szF f + szMChain rs + 8

def szP : AProd → Nat
  | .mkP f rs => szF f + szMChain rs + 8

def szAChain : AChain → Nat
  | .nilA => 1
  | .consA _ t rs => szP t + szAChain rs + 8

def szS : ASum → Nat
  | .mkS t rs => szP t + szAChain rs + 8

end


/-- Number of infix operators at the head chain level. -/
def lenM : MChain → Nat
  | .nilM => 0
  | .consM _ _ rs => lenM rs + 1

def lenA : AChain → Nat
  | .nilA => 0
  | .consA _ _ rs => lenA rs + 1

/-- Head token and tail of a factor rendering. -/
def headTokF : AFactor → Token
  | .num s => ⟨token.Integer, String.mk s⟩
  | .neg _ => ⟨token.Minus, "-"⟩
  | .paren _ => ⟨token.LeftParen, "("⟩

def tailF : AFactor → List Token
  | .num _ => []
  | .neg f => tokF f
  | .paren e => tokS e ++ [⟨token.RightParen, ")"⟩]

/-- The registered handler that parses a factor's first token. -/
def handlerF : AFactor → PrefixFn
  | .num _ => .parseIntegerLiteral
  | .neg _ => .parsePrefixExpression
  | .paren _ => .parseGroupedExpression

/-! Parser-state abstractions for the round-trip proof. -/

/-- The token a lexer position yields: the stream's token, or `EOF`
once exhausted. -/
def tokAt (l : List Token) (i : Nat) : Token := (l.get? i).getD ⟨token.EOF, ""⟩

/-- A parser state in mid-expression: the current token is `cur`, the
peek token and the stream continue with `l`. -/
def stateOn (cur : Token) (l : List Token) (errs : List String) : ParserState :=
  ⟨l.drop 1, cur, tokAt l 0, errs⟩

/-- A parser state about to read the first token of `l`. -/
def stateOf (l : List Token) (errs : List String) : ParserState :=
  stateOn (tokAt l 0) l.tail errs

/-- The precedence the Pratt loop sees for a peeked token type. -/
def nextPrec (t : Token) : Nat := (precedences t.type).getD LOWEST

/-- The first factor of a sum rendering (whose head token is the
program's first token). -/
def firstFS : ASum → AFactor
  | .mkS (.mkP f _) _ => f

/-- The layered-grammar tree of the spec example
`(5 + 10 * 2 + 15 / 3) * 2 + -10`. -/
def c5ExampleTree : ASum :=
  .mkS
    (.mkP
      (.paren (.mkS (.mkP (.num ['5']) .nilM)
        (.consA true (.mkP (.num ['1', '0']) (.consM true (.num ['2']) .nilM))
          (.consA true (.mkP (.num ['1', '5']) (.consM false (.num ['3']) .nilM))
            .nilA))))
      (.consM true (.num ['2']) .nilM))
    (.consA true (.mkP (.neg (.num ['1', '0'])) .nilM) .nilA)

/-! ## Theorems -/


/-! Environment-extension lemmas. -/

theorem envSet_concat (st : EnvStore) (F : Environment) (n : String) (v : Option Obj) :
    envSet (st ++ [F]) st.length n v = st ++ [⟨frameSet n v F.store, F.outer⟩] := by
  simp only [envSet, List.getElem?_concat_length]
  rw [List.set_append_right _ _ (Nat.le_refl _)]
  simp [List.set]

theorem bindParameters_concat (fenv : Nat) :
    ∀ (ps : List String) (args : List (Option Obj)) (st : EnvStore)
      (frame : List (String × Option Obj)),
      ps.length ≤ args.length →
      bindParameters st.length ps args (st ++ [⟨frame, some fenv⟩]) =
        .ok st.length (st ++ [⟨boundFrame ps args frame, some fenv⟩]) := by
  intro ps
  induction ps with
  | nil => intro args st frame _; simp [bindParameters, boundFrame]
  | cons p ps ih =>
    intro args st frame h
    cases args with
    | nil => simp at h
    | cons a rest =>
      simp only [bindParameters, boundFrame]
      rw [envSet_concat]
      exact ih rest st (frameSet p a frame) (by simpa using h)

theorem bindParameters_short (ref : Nat) :
    ∀ (ps : List String) (args : List (Option Obj)) (st : EnvStore),
      args.length < ps.length →
      bindParameters ref ps args st = .panic indexOutOfRange := by
  intro ps
  induction ps with
  | nil => intro args st h; simp at h
  | cons p ps ih =>
    intro args st h
    cases args with
    | nil => rfl
    | cons a rest =>
      simp only [bindParameters]
      exact ih rest _ (by simpa using h)

theorem boundFrame_take :
    ∀ (ps : List String) (args : List (Option Obj)) (frame : List (String × Option Obj)),
      boundFrame ps args frame = boundFrame ps (args.take ps.length) frame := by
  intro ps
  induction ps with
  | nil => intro args frame; simp [boundFrame]
  | cons p ps ih =>
    intro args frame
    cases args with
    | nil => rfl
    | cons a rest => simp only [boundFrame, List.take]; exact ih rest _

/-! Frame-lookup lemmas. -/

theorem frameGet_frameSet_self (n : String) (v : Option Obj) :
    ∀ F, frameGet n (frameSet n v F) = some v
  | [] => by simp [frameSet, frameGet]
  | (n', v') :: rest => by
    by_cases h : n' = n
    · simp [frameSet, h, frameGet]
    · simp [frameSet, h, frameGet, frameGet_frameSet_self n v rest]

theorem frameGet_frameSet_other {m n : String} (hne : m ≠ n) (v : Option Obj) :
    ∀ F, frameGet m (frameSet n v F) = frameGet m F
  | [] => by simp [frameSet, frameGet, Ne.symm hne]
  | (n', v') :: rest => by
    by_cases h : n' = n
    · subst h
      simp [frameSet, frameGet, Ne.symm hne]
    · simp only [frameSet, if_neg h, frameGet]
      by_cases h2 : n' = m
      · simp [h2]
      · simp [h2, frameGet_frameSet_other hne v rest]

theorem frameGet_boundFrame_not_mem {n : String} :
    ∀ (ps : List String) (args : List (Option Obj)) F, n ∉ ps →
      frameGet n (boundFrame ps args F) = frameGet n F
  | [], _, F, _ => rfl
  | _ :: _, [], F, _ => rfl
  | p :: ps, a :: rest, F, h => by
    simp only [boundFrame]
    rw [frameGet_boundFrame_not_mem ps rest _ (fun hm => h (List.mem_cons_of_mem _ hm))]
    exact frameGet_frameSet_other
      (fun he => h (by rw [he]; exact List.mem_cons_self p ps)) a F

theorem boundFrame_lookup :
    ∀ (ps : List String) (args : List (Option Obj)) (F : List (String × Option Obj))
      (i : Nat) (hi : i < ps.length) (hj : i < args.length), ps.Nodup →
      frameGet (ps.get ⟨i, hi⟩) (boundFrame ps args F) = some (args.get ⟨i, hj⟩)
  | p :: ps, a :: rest, F, 0, _, _, _ => by
    simp only [boundFrame, List.get]
    rw [frameGet_boundFrame_not_mem ps rest _ (by simp_all)]
    exact frameGet_frameSet_self p a F
  | p :: ps, a :: rest, F, i + 1, hi, hj, hnd => by
    simp only [boundFrame, List.get]
    exact boundFrame_lookup ps rest _ i (by simpa using hi) (by simpa using hj)
      (by simp_all)

/-! Statement-sequence composition. -/

theorem evalProgram_runs_normally {ev : Stmt → EnvStore → EvalRes}
    {ss : List Stmt} {st st1 : EnvStore}
    (h : RunsNormally ev ss st st1) :
    ∀ (t : Stmt) (ts : List Stmt) (acc : Option Obj),
      evalProgram ev (ss ++ t :: ts) acc st = evalProgram ev (t :: ts) none st1 := by
  induction h with
  | nil st => intro t ts acc; rfl
  | cons hstep hnormal htail ih =>
    intro t ts acc
    rename_i s rest st' st1' st2' r
    simp only [List.cons_append, evalProgram, hstep]
    rcases r with _ | o
    · exact ih t ts none
    · cases o <;> simp_all [abrupt] <;> rfl

/-! ### C1 — integer infix operators and division by zero -/

/-- C1 counterexample: for Integer operands 1 and 0 and the operator
`/`, evaluation does not return an Object: `evalIntegerInfixExpression`
(and a whole program containing `1 / 0`) raises the Go runtime panic
`integer divide by zero`, which, with no recover anywhere in the
program, halts the process. -/
theorem c1_division_by_zero_panics :
    evalIntegerInfixExpression "/" (.integer 1) (.integer 0) = .panic divideByZero ∧
    runProgram 9 [.exprStmt (some (.infixExpr "/"
      (some (.integerLiteral 1)) (some (.integerLiteral 0))))] = .panic divideByZero :=
  ⟨rfl, rfl⟩

/-- C1 (amended): for every pair of Integer operands `l`, `r` and every
operator among `+ - * /`, evaluating the infix expression returns an
Object — except that `/` with `r = 0` faults (Go runtime panic) rather
than returning; for a non-zero divisor the quotient is truncated toward
zero (with int64 wrap-around). -/
theorem c1_integer_infix_total (l r : Int) (op : String)
    (hop : op = "+" ∨ op = "-" ∨ op = "*" ∨ op = "/")
    (hdz : op = "/" → r ≠ 0) :
    ∃ o : Obj, evalIntegerInfixExpression op (.integer l) (.integer r) = .ok (some o) ∧
      (op = "/" → o = .integer (wrap64 (Int.tdiv l r))) := by
  rcases hop with h | h | h | h <;> subst h
  · exact ⟨.integer (wrap64 (l + r)), rfl, by intro h; exact absurd h (by decide)⟩
  · exact ⟨.integer (wrap64 (l - r)), rfl, by intro h; exact absurd h (by decide)⟩
  · exact ⟨.integer (wrap64 (l * r)), rfl, by intro h; exact absurd h (by decide)⟩
  · refine ⟨.integer (wrap64 (Int.tdiv l r)), ?_, fun _ => rfl⟩
    have h : evalIntegerInfixExpression "/" (.integer l) (.integer r) =
        if r = 0 then .panic divideByZero
        else .ok (some (.integer (wrap64 (Int.tdiv l r)))) := rfl
    rw [h, if_neg (hdz rfl)]

theorem c1_witness :
    ∃ o : Obj, evalIntegerInfixExpression "/" (.integer 7) (.integer (-2)) = .ok (some o) ∧
      ("/" = "/" → o = .integer (wrap64 (Int.tdiv 7 (-2)))) :=
  c1_integer_infix_total 7 (-2) "/" (by decide) (by decide)

/-! ### C2 — arity mismatch at function invocation -/

/-- C2 counterexample: invoking a one-parameter function with an empty
argument list does not bind the parameter to an absent/zero value; the
`args[i]` access in `extendFunctionEnv` faults with the Go runtime
panic `index out of range`. -/
theorem c2_missing_argument_faults :
    runProgram 9 [.exprStmt (some (.callExpr
      (some (.functionLiteral ["x"] [.exprStmt (some (.identifier "x"))])) []))]
    = .panic indexOutOfRange := rfl

/-- C2 (amended): invocation is permissive only on the long side —
when at least as many arguments as parameters are supplied, the
parameters are bound positionally and any extra arguments are ignored
(the binding depends only on the first `params.length` arguments);
when the argument list is shorter than the parameter list, invocation
faults with an index-out-of-range panic instead of binding missing
parameters to an absent/zero value. -/
theorem c2_arity_behaviour (params : List String) (fenv : Nat)
    (args : List (Option Obj)) (st : EnvStore) :
    (params.length ≤ args.length →
      extendFunctionEnv params fenv args st =
        .ok st.length (st ++ [⟨boundFrame params args [], some fenv⟩]) ∧
      boundFrame params args [] = boundFrame params (args.take params.length) []) ∧
    (args.length < params.length →
      extendFunctionEnv params fenv args st = .panic indexOutOfRange) := by
  constructor
  · intro h
    refine ⟨?_, boundFrame_take params args []⟩
    unfold extendFunctionEnv newEnclosedEnvironment
    exact bindParameters_concat fenv params args st [] h
  · intro h
    unfold extendFunctionEnv newEnclosedEnvironment
    exact bindParameters_short _ params args _ h

theorem c2_witness :
    ((["x"] : List String).length ≤
        ([some (.integer 1), some (.integer 2)] : List (Option Obj)).length →
      extendFunctionEnv ["x"] 0 [some (.integer 1), some (.integer 2)] newEnvironment =
        .ok newEnvironment.length
          (newEnvironment ++
            [⟨boundFrame ["x"] [some (.integer 1), some (.integer 2)] [], some 0⟩]) ∧
      boundFrame ["x"] [some (.integer 1), some (.integer 2)] [] =
        boundFrame ["x"]
          ([some (.integer 1), some (.integer 2)].take (["x"] : List String).length) []) ∧
    (([some (.integer 1), some (.integer 2)] : List (Option Obj)).length <
        (["x"] : List String).length →
      extendFunctionEnv ["x"] 0 [some (.integer 1), some (.integer 2)] newEnvironment =
        .panic indexOutOfRange) :=
  c2_arity_behaviour ["x"] 0 [some (.integer 1), some (.integer 2)] newEnvironment

/-! ### C4 — value-based error propagation -/

/-- C4: once a subexpression evaluates to an `Error` object, every
enclosing evaluation step that receives it as an operand — a prefix
operand, either infix operand, an `if` condition, a `return` or `let`
value, the callee or any argument of a call, either side of an index
expression, an array element, a hash key or value, or a statement of a
block or program — immediately returns that same `Error` unchanged;
and for the program
`if (10 > 1) { if (10 > 1) { return true + false; } return 1; }`
the outer block's result is the inner `Error`, not the integer `1`. -/
theorem c4_error_propagation (f env : Nat) :
    (∀ op right st st' m, Eval f (exprNode right) env st = .ok (some (.error m)) st' →
      Eval (f+1) (some (.expr (.prefixExpr op right))) env st = .ok (some (.error m)) st') ∧
    (∀ op left right st st' m, Eval f (exprNode left) env st = .ok (some (.error m)) st' →
      Eval (f+1) (some (.expr (.infixExpr op left right))) env st = .ok (some (.error m)) st') ∧
    (∀ op left right st st1 st2 l m, Eval f (exprNode left) env st = .ok l st1 →
      isError l = false →
      Eval f (exprNode right) env st1 = .ok (some (.error m)) st2 →
      Eval (f+1) (some (.expr (.infixExpr op left right))) env st = .ok (some (.error m)) st2) ∧
    (∀ c cons alt st st' m, Eval f (exprNode c) env st = .ok (some (.error m)) st' →
      Eval (f+1) (some (.expr (.ifExpr c cons alt))) env st = .ok (some (.error m)) st') ∧
    (∀ v st st' m, Eval f (exprNode v) env st = .ok (some (.error m)) st' →
      Eval (f+1) (some (.stmt (.returnStmt v))) env st = .ok (some (.error m)) st') ∧
    (∀ name v st st' m, Eval f (exprNode v) env st = .ok (some (.error m)) st' →
      Eval (f+1) (some (.stmt (.letStmt name v))) env st = .ok (some (.error m)) st') ∧
    (∀ fn args st st' m, Eval f (exprNode fn) env st = .ok (some (.error m)) st' →
      Eval (f+1) (some (.expr (.callExpr fn args))) env st = .ok (some (.error m)) st') ∧
    (∀ (ev : Option Expr → EnvStore → EvalRes) e rest acc st st' m,
      ev e st = .ok (some (.error m)) st' →
      evalExpressions ev (e :: rest) acc st = .ok [some (.error m)] st') ∧
    (∀ fn args st st1 st2 fnv m, Eval f (exprNode fn) env st = .ok fnv st1 →
      isError fnv = false →
      evalExpressions (fun e st => Eval f (exprNode e) env st) args [] st1 =
        .ok [some (.error m)] st2 →
      Eval (f+1) (some (.expr (.callExpr fn args))) env st = .ok (some (.error m)) st2) ∧
    (∀ left index st st' m, Eval f (exprNode left) env st = .ok (some (.error m)) st' →
      Eval (f+1) (some (.expr (.indexExpr left index))) env st = .ok (some (.error m)) st') ∧
    (∀ left index st st1 st2 l m, Eval f (exprNode left) env st = .ok l st1 →
      isError l = false →
      Eval f (exprNode index) env st1 = .ok (some (.error m)) st2 →
      Eval (f+1) (some (.expr (.indexExpr left index))) env st = .ok (some (.error m)) st2) ∧
    (∀ elements st st' m,
      evalExpressions (fun e st => Eval f (exprNode e) env st) elements [] st =
        .ok [some (.error m)] st' →
      Eval (f+1) (some (.expr (.arrayLiteral elements))) env st = .ok (some (.error m)) st') ∧
    (∀ (ev : Option Expr → EnvStore → EvalRes) k v rest pairs st st' m,
      ev k st = .ok (some (.error m)) st' →
      evalHashLiteral ev ((k, v) :: rest) pairs st = .ok (some (.error m)) st') ∧
    (∀ (ev : Option Expr → EnvStore → EvalRes) kNode vNode rest pairs st st1 st2 kObj hk m,
      ev kNode st = .ok (some kObj) st1 → isError (some kObj) = false →
      hashKeyOf kObj = some hk →
      ev vNode st1 = .ok (some (.error m)) st2 →
      evalHashLiteral ev ((kNode, vNode) :: rest) pairs st = .ok (some (.error m)) st2) ∧
    (∀ (ev : Stmt → EnvStore → EvalRes) s rest acc st st' m,
      ev s st = .ok (some (.error m)) st' →
      evalBlockStatement ev (s :: rest) acc st = .ok (some (.error m)) st') ∧
    (∀ (ev : Stmt → EnvStore → EvalRes) s rest acc st st' m,
      ev s st = .ok (some (.error m)) st' →
      evalProgram ev (s :: rest) acc st = .ok (some (.error m)) st') ∧
    run 99 99 "if (10 > 1) { if (10 > 1) { return true + false; } return 1; }" =
      .ok (some (.error "unknown operator: BOOLEAN + BOOLEAN")) newEnvironment := by
  refine ⟨?_, ?_, ?_, ?_, ?_, ?_, ?_, ?_, ?_, ?_, ?_, ?_, ?_, ?_, ?_, ?_, rfl⟩
  · intro op right st st' m h; simp only [Eval, h]; rfl
  · intro op left right st st' m h; simp only [Eval, h]; rfl
  · intro op left right st st1 st2 l m hl hle hr; simp only [Eval, hl, hle, hr]; rfl
  · intro c cons alt st st' m h
    simp only [Eval, evalIfExpression, exprNode] at h ⊢
    simp only [h]; rfl
  · intro v st st' m h; simp only [Eval, h]; rfl
  · intro name v st st' m h; simp only [Eval, h]; rfl
  · intro fn args st st' m h; simp only [Eval, h]; rfl
  · intro ev e rest acc st st' m h; simp only [evalExpressions, h]; rfl
  · intro fn args st st1 st2 fnv m hfn hfe hargs
    simp only [Eval, hfn, hfe, hargs]
    rfl
  · intro left index st st' m h; simp only [Eval, h]; rfl
  · intro left index st st1 st2 l m hl hle hi; simp only [Eval, hl, hle, hi]; rfl
  · intro elements st st' m h; simp only [Eval, h]; rfl
  · intro ev k v rest pairs st st' m h; simp only [evalHashLiteral, h]; rfl
  · intro ev kNode vNode rest pairs st st1 st2 kObj hk m hke hkerr hhk hv
    simp only [evalHashLiteral, hke, hkerr, hhk, hv]
    rfl
  · intro ev s rest acc st st' m h; simp only [evalBlockStatement, h]; rfl
  · intro ev s rest acc st st' m h; simp only [evalProgram, h]

theorem c4_witness :
    Eval 2 (some (.expr (.prefixExpr "!" (some (.identifier "nope"))))) 0 newEnvironment =
      .ok (some (.error "identifier not found: nope")) newEnvironment :=
  (c4_error_propagation 1 0).1 "!" (some (.identifier "nope")) newEnvironment newEnvironment
    "identifier not found: nope" rfl

/-! ### C6 — closures -/

/-- C6: a function literal captures its defining environment by shared
reference (the function object stores the environment reference
itself, unchanged); invocation creates a new environment whose parent
is the captured one and binds each parameter positionally to the
corresponding evaluated argument; the body's result has one
`ReturnValue` marker unwrapped before `applyFunction` returns; a
binding added to the shared frame after the closure was built is
visible at call time; and
`let newAdder = fn(x) { fn(y) { x + y }; }; let addTwo = newAdder(2); addTwo(3);`
evaluates to Integer 5. -/
theorem c6_closures (f env fenv : Nat) :
    (∀ params body st,
      Eval (f + 1) (some (.expr (.functionLiteral params body))) env st =
        .ok (some (.function params body env)) st) ∧
    (∀ (params : List String) (args : List (Option Obj)) (st : EnvStore),
      params.length ≤ args.length →
      extendFunctionEnv params fenv args st =
        .ok st.length (st ++ [⟨boundFrame params args [], some fenv⟩])) ∧
    (∀ (params : List String) (args : List (Option Obj)) (i : Nat)
        (hi : i < params.length) (hj : i < args.length), params.Nodup →
      frameGet (params.get ⟨i, hi⟩) (boundFrame params args []) =
        some (args.get ⟨i, hj⟩)) ∧
    (∀ (evBody : List Stmt → Nat → EnvStore → EvalRes) params body args st ref st' v st'',
      extendFunctionEnv params fenv args st = .ok ref st' →
      evBody body ref st' = .ok v st'' →
      applyFunction evBody (some (.function params body fenv)) args st =
        .ok (unwrapReturnValue v) st'') ∧
    (∀ v, unwrapReturnValue (some (.returnValue v)) = v) ∧
    run 99 99 "let f = fn() { x; }; let x = 5; f();" =
      .ok (some (.integer 5))
        [⟨[("f", some (.function [] [.exprStmt (some (.identifier "x"))] 0)),
           ("x", some (.integer 5))], none⟩, ⟨[], some 0⟩] ∧
    (∃ st, run 99 99
      "let newAdder = fn(x) { fn(y) { x + y }; }; let addTwo = newAdder(2); addTwo(3);" =
      .ok (some (.integer 5)) st) := by
  refine ⟨fun params body st => rfl, ?_, ?_, ?_, fun v => rfl, rfl, ⟨_, rfl⟩⟩
  · intro params args st h
    unfold extendFunctionEnv newEnclosedEnvironment
    exact bindParameters_concat fenv params args st [] h
  · exact fun params args i hi hj hnd => boundFrame_lookup params args [] i hi hj hnd
  · intro evBody params body args st ref st' v st'' hext hbody
    simp only [applyFunction, hext, hbody]

theorem c6_witness :
    Eval 1 (some (.expr (.functionLiteral ["x"] []))) 0 newEnvironment =
      .ok (some (.function ["x"] [] 0)) newEnvironment ∧
    frameGet ((["x", "y"] : List String).get ⟨1, by decide⟩)
        (boundFrame ["x", "y"] [some (.integer 1), some (.integer 2)] []) =
      some (([some (.integer 1), some (.integer 2)] : List (Option Obj)).get ⟨1, by decide⟩) :=
  ⟨(c6_closures 0 0 0).1 ["x"] [] newEnvironment,
   (c6_closures 0 0 0).2.2.1 ["x", "y"] [some (.integer 1), some (.integer 2)] 1
     (by decide) (by decide) (by decide)⟩

/-! ### C7 — out-of-range / missing-key index access -/

/-- C7: indexing an Array with a negative or too-large Integer index,
and indexing a Hash with a hashable key that is absent, both evaluate
to `Null` — never an `Error` and never a fault; in particular
`[1,2,3][5]` and `{"a":1}["b"]` evaluate to `Null`. -/
theorem c7_index_misses_yield_null :
    (∀ (elements : List (Option Obj)) (idx : Int),
        idx < 0 ∨ (elements.length : Int) - 1 < idx →
        evalArrayIndexExpression elements idx = some .null) ∧
    (∀ (pairs : List (HashKey × Obj × Option Obj)) (i : Obj) (hk : HashKey),
        hashKeyOf i = some hk → hashLookup hk pairs = none →
        evalHashIndexExpression pairs (some i) = .ok (some .null)) ∧
    runProgram 9 [.exprStmt (some (.indexExpr
      (some (.arrayLiteral [some (.integerLiteral 1), some (.integerLiteral 2),
        some (.integerLiteral 3)]))
      (some (.integerLiteral 5))))] = .ok (some .null) newEnvironment ∧
    runProgram 9 [.exprStmt (some (.indexExpr
      (some (.hashLiteral [(some (.stringLiteral "a"), some (.integerLiteral 1))]))
      (some (.stringLiteral "b"))))] = .ok (some .null) newEnvironment := by
  refine ⟨?_, ?_, rfl, rfl⟩
  · intro elements idx h
    unfold evalArrayIndexExpression
    exact if_pos h
  · intro pairs i hk hkey hlook
    simp only [evalHashIndexExpression, hkey, hlook]

theorem c7_witness :
    evalArrayIndexExpression [] 0 = some .null ∧
    evalHashIndexExpression [] (some (.integer 0)) = .ok (some .null) :=
  ⟨c7_index_misses_yield_null.1 [] 0 (by norm_num),
   c7_index_misses_yield_null.2.1 [] (.integer 0) ⟨IntegerObj, 0⟩ rfl rfl⟩

/-! ### C8 — call/index infix registration at top precedence -/

/-- C8: the parser registers infix handlers for `(` (call) and `[`
(index; modelled from the spec, see `infixParseFns`), both bound at
the `CALL` precedence, the strict maximum of the table
equality < relational < additive < multiplicative < unary < call/index;
consequently `f(x)(y)` and `a[0][1]` parse into left-nested trees. -/
theorem c8_call_index_handlers_top_precedence :
    infixParseFns token.LeftParen = some .parseCallExpression ∧
    infixParseFns token.LeftBracket = some .parseIndexExpression ∧
    precedences token.LeftParen = some CALL ∧
    precedences token.LeftBracket = some CALL ∧
    (EQUALS < LESS_GREATER ∧ LESS_GREATER < SUM ∧ SUM < PRODUCT ∧
      PRODUCT < UNARY ∧ UNARY < CALL) ∧
    (∀ (t : TokenType) (pr : Nat), precedences t = some pr → pr ≤ CALL) ∧
    (parseSource 99 "f(x)(y)").1 =
      [.exprStmt (some (.callExpr
        (some (.callExpr (some (.identifier "f")) [some (.identifier "x")]))
        [some (.identifier "y")]))] ∧
    (parseSource 99 "a[0][1]").1 =
      [.exprStmt (some (.indexExpr
        (some (.indexExpr (some (.identifier "a")) (some (.integerLiteral 0))))
        (some (.integerLiteral 1))))] := by
  refine ⟨rfl, rfl, rfl, rfl, by decide, ?_, rfl, rfl⟩
  intro t pr h
  unfold precedences at h
  split_ifs at h <;> simp_all [EQUALS, LESS_GREATER, SUM, PRODUCT, UNARY, CALL] <;> omega

theorem c8_witness : SUM ≤ CALL :=
  c8_call_index_handlers_top_precedence.2.2.2.2.2.1 token.Plus SUM rfl

/-! ### C9 — missing-token diagnostics -/

/-- C9: evaluating the parser at the failing input `"(1 + 2"`: the
grouped-expression handler passes the actual peek token's type to
`peekError` in place of the expected `)`, so the diagnostic reads
`expected next token to be EOF, got EOF instead`, naming the actual
token twice and the expected token not at all — contradicting the
claimed (and elsewhere honoured, e.g. `"let x 5;"`) expected-vs-actual
shape. -/
theorem c9_grouped_diagnostic_names_actual_twice :
    (parseSource 99 "(1 + 2").2 =
      ["expected next token to be EOF, got EOF instead"] ∧
    (parseSource 99 "let x 5;").2 =
      ["expected next token to be =, got INTEGER instead"] := ⟨rfl, rfl⟩

/-! ### C10 — a trailing let statement yields the host nil -/

/-- C10: an empty Program evaluates to the host nil; a `LetStatement`
whose value evaluates without error produces nil (after the `Set` side
effect); and a Program whose statements all complete normally and
whose final statement is such a `let` makes `Eval` return nil — not
the `Null` object, nor any other Object. -/
theorem c10_trailing_let_yields_nil (f g env : Nat) :
    (∀ st, Eval (f + 1) (some (.program [])) env st = .ok none st) ∧
    (∀ (name : String) (v : Option Expr) (st : EnvStore) (val : Option Obj)
       (st' : EnvStore),
       Eval g (exprNode v) env st = .ok val st' → isError val = false →
       Eval (g + 1) (some (.stmt (.letStmt name v))) env st =
         .ok none (envSet st' env name val)) ∧
    (∀ (ss : List Stmt) (name : String) (v : Option Expr) (st st1 st2 : EnvStore),
       RunsNormally (fun s st => Eval f (some (.stmt s)) env st) ss st st1 →
       Eval f (some (.stmt (.letStmt name v))) env st1 = .ok none st2 →
       Eval (f + 1) (some (.program (ss ++ [.letStmt name v]))) env st = .ok none st2) := by
  refine ⟨fun st => rfl, ?_, ?_⟩
  · intro name v st val st' hval herr
    simp only [Eval, hval, herr]
    rfl
  · intro ss name v st st1 st2 hnorm hlet
    show evalProgram _ (ss ++ [Stmt.letStmt name v]) none st = _
    rw [evalProgram_runs_normally hnorm]
    simp only [evalProgram, hlet]

theorem c10_witness :
    Eval 3 (some (.program ([] ++ [.letStmt "x" (some (.integerLiteral 5))]))) 0
      newEnvironment = .ok none [⟨[("x", some (.integer 5))], none⟩] :=
  (c10_trailing_let_yields_nil 2 1 0).2.2 [] "x" (some (.integerLiteral 5))
    newEnvironment newEnvironment [⟨[("x", some (.integer 5))], none⟩]
    (RunsNormally.nil newEnvironment) rfl

/-! ### C3 — Error/ReturnValue containment in arrays and hashes -/


/-- C3 counterexample: evaluating the array literal
`[if (true) { return 1; }]` produces an Array whose element is the
`ReturnValue` marker wrapping Integer 1 — a `ReturnValue` stored inside
an Array, surviving past the unwinding of the inner block.  (The same
element in a hash-literal value stores it inside a Hash.) -/
theorem c3_return_value_escapes_into_array :
    runProgram 9 [.exprStmt (some (.arrayLiteral [some (.ifExpr (some (.boolean true))
      [.returnStmt (some (.integerLiteral 1))] none)]))] =
      .ok (some (.array [some (.returnValue (some (.integer 1)))])) newEnvironment := rfl

theorem isError_eq_true_iff (v : Option Obj) :
    isError v = true ↔ ∃ m, v = some (.error m) := by
  cases v with
  | none => simp [isError]
  | some o => cases o <;> simp [isError]

theorem errOkElem_of_errOkEntry {v : Option Obj} (h : errOkEntry v = true) :
    errOkElem v = true := by
  cases v with
  | none => simp [errOkElem]
  | some o => cases o <;> simp_all [errOkEntry, errOkElem]

theorem errOkEntry_of_not_error {v : Option Obj} (he : isError v = false)
    (h : errOkElem v = true) : errOkEntry v = true := by
  cases v with
  | none => simp [errOkEntry, errOkElem]
  | some o => cases o <;> simp_all [isError, errOkEntry, errOkElem]

theorem errOkList_of_entriesOk : ∀ {objs : List (Option Obj)},
    entriesOk objs → errOkList objs = true
  | [], _ => by simp [errOkList]
  | o :: rest, h => by
    simp only [errOkList, Bool.and_eq_true]
    exact ⟨h o (List.mem_cons_self _ _),
      errOkList_of_entriesOk (fun x hx => h x (List.mem_cons_of_mem _ hx))⟩

theorem errOkEntry_of_errOkList : ∀ {objs : List (Option Obj)} {o : Option Obj},
    errOkList objs = true → o ∈ objs → errOkEntry o = true
  | o' :: rest, o, h, hm => by
    simp only [errOkList, Bool.and_eq_true] at h
    rcases List.mem_cons.mp hm with he | hm'
    · exact he ▸ h.1
    · exact errOkEntry_of_errOkList h.2 hm'

theorem hashLookup_errOk {k : HashKey} :
    ∀ {pairs : List (HashKey × Obj × Option Obj)} {ko : Obj} {v : Option Obj},
    errOkPairs pairs = true → hashLookup k pairs = some (ko, v) → errOkEntry v = true
  | (k', ko', v') :: rest, ko, v, h, hl => by
    simp only [errOkPairs, Bool.and_eq_true] at h
    by_cases he : k' = k
    · simp only [hashLookup, if_pos he] at hl
      cases hl
      exact h.1.2
    · simp only [hashLookup, if_neg he] at hl
      exact hashLookup_errOk h.2 hl

theorem errOkPairs_hashInsert {hk : HashKey} {k : Obj} {v : Option Obj}
    (hko : errOkObj k = true) (hv : errOkEntry v = true) :
    ∀ {pairs : List (HashKey × Obj × Option Obj)},
    errOkPairs pairs = true → errOkPairs (hashInsert hk (k, v) pairs) = true
  | [], _ => by simp [hashInsert, errOkPairs, hko, hv]
  | (k', ko', v') :: rest, h => by
    simp only [errOkPairs, Bool.and_eq_true] at h
    by_cases he : k' = hk
    · simp [hashInsert, if_pos he, errOkPairs, hko, hv, h.2]
    · simp only [hashInsert, if_neg he, errOkPairs, Bool.and_eq_true]
      exact ⟨h.1, errOkPairs_hashInsert hko hv h.2⟩

theorem unwrapReturnValue_errOk {v : Option Obj} (h : errOkElem v = true) :
    errOkElem (unwrapReturnValue v) = true := by
  cases v with
  | none => simpa [unwrapReturnValue] using h
  | some o => cases o <;> simp_all [unwrapReturnValue, errOkElem, errOkObj]



theorem frameGet_errOk {F : List (String × Option Obj)} {n : String} {v : Option Obj}
    (hall : F.all (fun pv => errOkElem pv.2) = true) (h : frameGet n F = some v) :
    errOkElem v = true := by
  induction F with
  | nil => simp [frameGet] at h
  | cons pv rest ih =>
    rcases pv with ⟨n', v'⟩
    simp only [List.all_cons, Bool.and_eq_true] at hall
    by_cases he : n' = n
    · simp only [frameGet, if_pos he] at h; cases h; exact hall.1
    · simp only [frameGet, if_neg he] at h; exact ih hall.2 h

theorem storeOk_frame {st : EnvStore} {i : Nat} {env : Environment}
    (hs : storeOk st = true) (h : st[i]? = some env) :
    env.store.all (fun pv => errOkElem pv.2) = true :=
  (List.all_eq_true.mp hs) env (List.getElem?_mem h)

theorem envGet_errOk {st : EnvStore} (hs : storeOk st = true) :
    ∀ (fuel ref : Nat) {n : String} {v : Option Obj},
      envGetF st fuel ref n = some v → errOkElem v = true := by
  intro fuel
  induction fuel with
  | zero => intro ref n v h; simp [envGetF] at h
  | succ fuel ih =>
    intro ref n v h
    simp only [envGetF] at h
    cases he : st[ref]? with
    | none => simp only [he] at h; cases h
    | some env =>
      simp only [he] at h
      cases hf : frameGet n env.store with
      | some v' =>
        simp only [hf] at h
        cases h
        exact frameGet_errOk (storeOk_frame hs he) hf
      | none =>
        simp only [hf] at h
        cases ho : env.outer with
        | none => simp only [ho] at h; cases h
        | some o =>
          simp only [ho] at h
          exact ih o h

theorem frameSet_all {F : List (String × Option Obj)} {n : String} {v : Option Obj}
    (hall : F.all (fun pv => errOkElem pv.2) = true) (hv : errOkElem v = true) :
    (frameSet n v F).all (fun pv => errOkElem pv.2) = true := by
  induction F with
  | nil => simp [frameSet, hv]
  | cons pv rest ih =>
    rcases pv with ⟨n', v'⟩
    simp only [List.all_cons, Bool.and_eq_true] at hall
    by_cases he : n' = n
    · simp only [frameSet, if_pos he, List.all_cons, Bool.and_eq_true]
      exact ⟨hv, hall.2⟩
    · simp only [frameSet, if_neg he, List.all_cons, Bool.and_eq_true]
      exact ⟨hall.1, ih hall.2⟩

theorem storeOk_envSet {st : EnvStore} {ref : Nat} {n : String} {v : Option Obj}
    (hs : storeOk st = true) (hv : errOkElem v = true) :
    storeOk (envSet st ref n v) = true := by
  unfold envSet
  cases he : st[ref]? with
  | none => exact hs
  | some env =>
    simp only [storeOk, List.all_eq_true]
    intro e hmem
    rcases List.mem_or_eq_of_mem_set hmem with hmem' | heq
    · exact List.all_eq_true.mp ((List.all_eq_true.mp hs) e hmem')
    · subst heq
      exact List.all_eq_true.mp (frameSet_all (storeOk_frame hs he) hv)

theorem storeOk_concat {st : EnvStore} {fenv : Nat} (hs : storeOk st = true) :
    storeOk (st ++ [⟨[], some fenv⟩]) = true := by
  simp [storeOk] at hs ⊢
  exact hs

theorem bindParameters_storeOk :
    ∀ (ps : List String) (args : List (Option Obj)) (ref : Nat) (st : EnvStore)
      {ref' : Nat} {st' : EnvStore},
      storeOk st = true → entriesOk args →
      bindParameters ref ps args st = .ok ref' st' → storeOk st' = true
  | [], args, ref, st, ref', st', hs, _, h => by
    cases h; exact hs
  | p :: ps, [], ref, st, ref', st', hs, _, h => by
    cases h
  | p :: ps, a :: rest, ref, st, ref', st', hs, ha, h => by
    simp only [bindParameters] at h
    exact bindParameters_storeOk ps rest ref _
      (storeOk_envSet hs (errOkElem_of_errOkEntry (ha a (List.mem_cons_self _ _))))
      (fun x hx => ha x (List.mem_cons_of_mem _ hx)) h

theorem extendFunctionEnv_storeOk {params : List String} {fenv : Nat}
    {args : List (Option Obj)} {st : EnvStore} {ref' : Nat} {st' : EnvStore}
    (hs : storeOk st = true) (ha : entriesOk args)
    (h : extendFunctionEnv params fenv args st = .ok ref' st') :
    storeOk st' = true := by
  unfold extendFunctionEnv newEnclosedEnvironment at h
  exact bindParameters_storeOk params args st.length _ (storeOk_concat hs) ha h



theorem evalPrefixExpression_errOk (op : String) (r : Option Obj) :
    PResOk (evalPrefixExpression op r) := by
  unfold evalPrefixExpression
  split_ifs with h1 h2
  · show errOkElem (some (evalBangOperatorExpression r)) = true
    cases r with
    | none => simp [evalBangOperatorExpression, errOkElem, errOkObj]
    | some o =>
      cases o with
      | boolean b =>
        cases b <;> simp [evalBangOperatorExpression, errOkElem, errOkObj]
      | integer v => simp [evalBangOperatorExpression, errOkElem, errOkObj]
      | null => simp [evalBangOperatorExpression, errOkElem, errOkObj]
      | returnValue v => simp [evalBangOperatorExpression, errOkElem, errOkObj]
      | error m => simp [evalBangOperatorExpression, errOkElem, errOkObj]
      | function p b e => simp [evalBangOperatorExpression, errOkElem, errOkObj]
      | str v => simp [evalBangOperatorExpression, errOkElem, errOkObj]
      | builtin n => simp [evalBangOperatorExpression, errOkElem, errOkObj]
      | array els => simp [evalBangOperatorExpression, errOkElem, errOkObj]
      | hash ps => simp [evalBangOperatorExpression, errOkElem, errOkObj]
  · unfold evalMinusPrefixOperatorExpression
    cases r with
    | none => simp [PResOk]
    | some o =>
      cases o <;> simp [objType, PResOk, errOkElem, errOkObj,
        IntegerObj, BooleanObj, NullObj, ReturnValueObj, ErrorObj, FunctionObj,
        StringObj, BuiltinObj, ArrayObj, HashObj]
  · cases r with
    | none => simp [PResOk]
    | some o => simp [PResOk, errOkElem, errOkObj]




theorem evalIntegerInfixExpression_errOk (op : String) (l r : Obj) :
    PResOk (evalIntegerInfixExpression op l r) := by
  unfold evalIntegerInfixExpression
  cases l <;> cases r <;> try simp [PResOk]
  split_ifs <;> simp [PResOk, errOkElem, errOkObj, nativeBoolToBooleanObject]

theorem evalStringInfixExpression_errOk (op : String) (l r : Obj) :
    PResOk (evalStringInfixExpression op l r) := by
  unfold evalStringInfixExpression
  cases l <;> cases r <;> try simp [PResOk]
  split_ifs <;> simp [PResOk, errOkElem, errOkObj]

theorem evalInfixExpression_errOk : ∀ (op : String) (l r : Option Obj),
    PResOk (evalInfixExpression op l r)
  | op, none, r => by simp [evalInfixExpression, PResOk]
  | op, some l, none => by
    simp only [evalInfixExpression]
    split_ifs <;> simp [PResOk, errOkElem, errOkObj, nativeBoolToBooleanObject]
  | op, some l, some r => by
    simp only [evalInfixExpression]
    split_ifs
    · exact evalIntegerInfixExpression_errOk op l r
    · exact evalStringInfixExpression_errOk op l r
    all_goals simp [PResOk, errOkElem, errOkObj, nativeBoolToBooleanObject]

theorem evalArrayIndexExpression_errOk {elements : List (Option Obj)} (idx : Int)
    (h : errOkList elements = true) :
    errOkElem (evalArrayIndexExpression elements idx) = true := by
  unfold evalArrayIndexExpression
  split_ifs
  · simp [errOkElem, errOkObj]
  · cases hg : elements.get? idx.toNat with
    | none => simp [hg, errOkElem, Option.join]
    | some o =>
      simp only [hg, Option.join]
      exact errOkElem_of_errOkEntry (errOkEntry_of_errOkList h (List.get?_mem hg))

theorem evalHashIndexExpression_errOk {pairs : List (HashKey × Obj × Option Obj)}
    (index : Option Obj) (h : errOkPairs pairs = true) :
    PResOk (evalHashIndexExpression pairs index) := by
  cases index with
  | none => simp [evalHashIndexExpression, PResOk]
  | some i =>
    simp only [evalHashIndexExpression]
    cases hk : hashKeyOf i with
    | none => simp [PResOk, errOkElem, errOkObj]
    | some k =>
      cases hl : hashLookup k pairs with
      | none => simp [hl, PResOk, errOkElem, errOkObj]
      | some p =>
        rcases p with ⟨ko, v⟩
        simp only [hl, PResOk]
        exact errOkElem_of_errOkEntry (hashLookup_errOk h hl)

theorem evalIndexExpression_errOk {left index : Option Obj}
    (hl : errOkElem left = true) (hi : errOkElem index = true) :
    PResOk (evalIndexExpression left index) := by
  cases left with
  | none => simp [evalIndexExpression, PResOk]
  | some l =>
    cases l
    case array elements =>
      cases index with
      | none => simp [evalIndexExpression, PResOk]
      | some i =>
        cases i
        case integer idx =>
          simp only [evalIndexExpression]
          have harr : errOkList elements = true := by
            simpa [errOkElem, errOkObj] using hl
          exact evalArrayIndexExpression_errOk idx harr
        all_goals simp [evalIndexExpression, PResOk, errOkElem, errOkObj]
    case hash pairs =>
      simp only [evalIndexExpression]
      have hp : errOkPairs pairs = true := by simpa [errOkElem, errOkObj] using hl
      exact evalHashIndexExpression_errOk index hp
    all_goals simp [evalIndexExpression, PResOk, errOkElem, errOkObj]

theorem lenBuiltin_errOk (args : List (Option Obj)) : PResOk (lenBuiltin args) := by
  unfold lenBuiltin
  split_ifs
  · simp [PResOk, errOkElem, errOkObj]
  · cases h : args.headD none with
    | none => simp [PResOk]
    | some o => cases o <;> simp [PResOk, errOkElem, errOkObj]

theorem PRes_toEval_ResOk {r : PRes} {st : EnvStore} (h : PResOk r)
    (hs : storeOk st = true) : ResOk (r.toEval st) := by
  cases r <;> simp_all [PRes.toEval, PResOk, ResOk]

theorem evalIdentifier_errOk (name : String) (env : Nat) {st : EnvStore}
    (hs : storeOk st = true) : ResOk (evalIdentifier name env st) := by
  unfold evalIdentifier
  cases hg : envGet st env name with
  | some v =>
    exact ⟨envGet_errOk hs _ _ hg, hs⟩
  | none =>
    unfold builtins
    split_ifs
    · exact ⟨by simp [errOkElem, errOkObj], hs⟩
    · exact ⟨by simp [errOkElem, errOkObj], hs⟩



theorem ListResOk_head {objs : List (Option Obj)} {st : EnvStore}
    (h : ListResOk (.ok objs st)) : errOkElem (objs.headD none) = true := by
  rcases h.1 with he | ⟨m, rfl⟩
  · cases objs with
    | nil => simp [errOkElem]
    | cons o rest => exact errOkElem_of_errOkEntry (he o (List.mem_cons_self _ _))
  · simp [errOkElem, errOkObj]

theorem evalProgram_errOk {ev : Stmt → EnvStore → EvalRes}
    (hev : ∀ s st, storeOk st = true → ResOk (ev s st)) :
    ∀ (ss : List Stmt) (acc : Option Obj) (st : EnvStore),
      storeOk st = true → errOkElem acc = true →
      ResOk (evalProgram ev ss acc st)
  | [], acc, st, hs, ha => ⟨ha, hs⟩
  | s :: rest, acc, st, hs, ha => by
    simp only [evalProgram]
    cases he : ev s st with
    | panic m => simp [ResOk]
    | timeout => simp [ResOk]
    | ok result st' =>
      dsimp only
      have hr := hev s st hs
      rw [he] at hr
      cases result with
      | none =>
        exact evalProgram_errOk hev rest none st' hr.2 (by simp [errOkElem])
      | some o =>
        cases o
        case returnValue v =>
          refine ⟨?_, hr.2⟩
          have := hr.1
          simpa [errOkElem, errOkObj] using this
        case error m => exact ⟨by simp [errOkElem, errOkObj], hr.2⟩
        all_goals exact evalProgram_errOk hev rest _ st' hr.2 hr.1

theorem evalBlockStatement_errOk {ev : Stmt → EnvStore → EvalRes}
    (hev : ∀ s st, storeOk st = true → ResOk (ev s st)) :
    ∀ (ss : List Stmt) (acc : Option Obj) (st : EnvStore),
      storeOk st = true → errOkElem acc = true →
      ResOk (evalBlockStatement ev ss acc st)
  | [], acc, st, hs, ha => ⟨ha, hs⟩
  | s :: rest, acc, st, hs, ha => by
    simp only [evalBlockStatement]
    cases he : ev s st with
    | panic m => simp [ResOk]
    | timeout => simp [ResOk]
    | ok result st' =>
      dsimp only
      have hr := hev s st hs
      rw [he] at hr
      cases result with
      | none =>
        exact evalBlockStatement_errOk hev rest none st' hr.2 (by simp [errOkElem])
      | some o =>
        dsimp only
        by_cases hc : objType o = ReturnValueObj ∨ objType o = ErrorObj
        · rw [if_pos hc]
          exact ⟨hr.1, hr.2⟩
        · rw [if_neg hc]
          exact evalBlockStatement_errOk hev rest (some o) st' hr.2 hr.1

theorem evalExpressions_errOk {ev : Option Expr → EnvStore → EvalRes}
    (hev : ∀ e st, storeOk st = true → ResOk (ev e st)) :
    ∀ (es : List (Option Expr)) (acc : List (Option Obj)) (st : EnvStore),
      storeOk st = true → entriesOk acc →
      ListResOk (evalExpressions ev es acc st)
  | [], acc, st, hs, ha => ⟨Or.inl ha, hs⟩
  | e :: rest, acc, st, hs, ha => by
    simp only [evalExpressions]
    cases he : ev e st with
    | panic m => simp [ListResOk]
    | timeout => simp [ListResOk]
    | ok v st' =>
      dsimp only
      have hr := hev e st hs
      rw [he] at hr
      by_cases hie : isError v = true
      · rw [if_pos hie]
        rcases (isError_eq_true_iff v).mp hie with ⟨m, rfl⟩
        exact ⟨Or.inr ⟨m, rfl⟩, hr.2⟩
      · rw [if_neg hie]
        refine evalExpressions_errOk hev rest (acc ++ [v]) st' hr.2 ?_
        intro o ho
        rcases List.mem_append.mp ho with ho' | ho'
        · exact ha o ho'
        · rcases List.mem_singleton.mp ho' with rfl
          exact errOkEntry_of_not_error (by simpa using hie) hr.1

theorem evalHashLiteral_errOk {ev : Option Expr → EnvStore → EvalRes}
    (hev : ∀ e st, storeOk st = true → ResOk (ev e st)) :
    ∀ (pairsNodes : List (Option Expr × Option Expr))
      (pairs : List (HashKey × Obj × Option Obj)) (st : EnvStore),
      storeOk st = true → errOkPairs pairs = true →
      ResOk (evalHashLiteral ev pairsNodes pairs st)
  | [], pairs, st, hs, hp => ⟨by simpa [errOkElem, errOkObj] using hp, hs⟩
  | (kNode, vNode) :: rest, pairs, st, hs, hp => by
    simp only [evalHashLiteral]
    cases hke : ev kNode st with
    | panic m => simp [ResOk]
    | timeout => simp [ResOk]
    | ok key st1 =>
      dsimp only
      have hkr := hev kNode st hs
      rw [hke] at hkr
      by_cases hie : isError key = true
      · rw [if_pos hie]
        exact ⟨hkr.1, hkr.2⟩
      · rw [if_neg hie]
        cases key with
        | none => simp [ResOk]
        | some k =>
          dsimp only
          cases hhk : hashKeyOf k with
          | none => exact ⟨by simp [errOkElem, errOkObj], hkr.2⟩
          | some hashed =>
            dsimp only
            cases hve : ev vNode st1 with
            | panic m => simp [ResOk]
            | timeout => simp [ResOk]
            | ok value st2 =>
              dsimp only
              have hvr := hev vNode st1 hkr.2
              rw [hve] at hvr
              by_cases hive : isError value = true
              · rw [if_pos hive]
                exact ⟨hvr.1, hvr.2⟩
              · rw [if_neg hive]
                refine evalHashLiteral_errOk hev rest _ st2 hvr.2 ?_
                refine errOkPairs_hashInsert ?_ ?_ hp
                · simpa [errOkElem] using hkr.1
                · exact errOkEntry_of_not_error (by simpa using hive) hvr.1

theorem applyFunction_errOk {evBody : List Stmt → Nat → EnvStore → EvalRes}
    (hevB : ∀ body ref st, storeOk st = true → ResOk (evBody body ref st))
    (fn : Option Obj) (args : List (Option Obj)) (st : EnvStore)
    (hs : storeOk st = true) (ha : entriesOk args) :
    ResOk (applyFunction evBody fn args st) := by
  cases fn with
  | none => simp [applyFunction, ResOk]
  | some f =>
    cases f
    case function params body fenv =>
      simp only [applyFunction]
      cases hex : extendFunctionEnv params fenv args st with
      | panic m => simp [ResOk]
      | ok ref st' =>
        dsimp only
        have hst' := extendFunctionEnv_storeOk hs ha hex
        cases hb : evBody body ref st' with
        | panic m => simp [ResOk]
        | timeout => simp [ResOk]
        | ok v st'' =>
          dsimp only
          have hr := hevB body ref st' hst'
          rw [hb] at hr
          exact ⟨unwrapReturnValue_errOk hr.1, hr.2⟩
    case builtin name =>
      exact PRes_toEval_ResOk (lenBuiltin_errOk args) hs
    all_goals exact ⟨by simp [errOkElem, errOkObj], hs⟩

theorem evalIfExpression_errOk {ev : Option Node → EnvStore → EvalRes}
    (hev : ∀ n st, storeOk st = true → ResOk (ev n st))
    (condition : Option Expr) (cons : List Stmt) (alt : Option (List Stmt))
    (st : EnvStore) (hs : storeOk st = true) :
    ResOk (evalIfExpression ev condition cons alt st) := by
  simp only [evalIfExpression]
  cases hc : ev (condition.map Node.expr) st with
  | panic m => simp [ResOk]
  | timeout => simp [ResOk]
  | ok c st' =>
    dsimp only
    have hr := hev (condition.map Node.expr) st hs
    rw [hc] at hr
    by_cases hie : isError c = true
    · rw [if_pos hie]
      exact ⟨hr.1, hr.2⟩
    · rw [if_neg hie]
      by_cases ht : isTruthy c = true
      · rw [if_pos ht]
        exact hev _ st' hr.2
      · rw [if_neg ht]
        cases alt with
        | some a => exact hev _ st' hr.2
        | none => exact ⟨by simp [errOkElem, errOkObj], hr.2⟩



/-- C3 (amended): for every AST node, environment and error-contained
store, evaluation never stores an `Error` object inside an Array or a
Hash: if `Eval` returns a value, then no Array element, no Hash key or
value, anywhere inside the result or inside any environment frame,
is an `Error` (`ResOk`, built on `errOkObj`); `Error` is transient.
The corresponding transience claim for `ReturnValue` is false — see
the counterexample — so it is dropped from the amended claim. -/
theorem c3_no_error_inside_arrays_or_hashes :
    ∀ (f : Nat) (node : Option Node) (env : Nat) (st : EnvStore),
      storeOk st = true → ResOk (Eval f node env st) := by
  intro f
  induction f with
  | zero => intro node env st hs; simp [Eval, ResOk]
  | succ f ih =>
    intro node env st hs
    rcases node with _ | n
    · exact ⟨by simp [errOkElem], hs⟩
    rcases n with stmts | s | e
    · exact evalProgram_errOk (fun s st hs => ih (some (.stmt s)) env st hs)
        stmts none st hs (by simp [errOkElem])
    · rcases s with ⟨name, v⟩ | v | e | stmts
      · -- letStmt
        simp only [Eval]
        cases he : Eval f (exprNode v) env st with
        | panic m => simp [ResOk]
        | timeout => simp [ResOk]
        | ok val st' =>
          dsimp only
          have hr := ih (exprNode v) env st hs
          rw [he] at hr
          by_cases hie : isError val = true
          · rw [if_pos hie]; exact ⟨hr.1, hr.2⟩
          · rw [if_neg hie]
            exact ⟨by simp [errOkElem], storeOk_envSet hr.2 hr.1⟩
      · -- returnStmt
        simp only [Eval]
        cases he : Eval f (exprNode v) env st with
        | panic m => simp [ResOk]
        | timeout => simp [ResOk]
        | ok val st' =>
          dsimp only
          have hr := ih (exprNode v) env st hs
          rw [he] at hr
          by_cases hie : isError val = true
          · rw [if_pos hie]; exact ⟨hr.1, hr.2⟩
          · rw [if_neg hie]
            exact ⟨by simpa [errOkElem, errOkObj] using hr.1, hr.2⟩
      · -- exprStmt
        simp only [Eval]
        exact ih (exprNode e) env st hs
      · -- blockStmt
        exact evalBlockStatement_errOk (fun s st hs => ih (some (.stmt s)) env st hs)
          stmts none st hs (by simp [errOkElem])
    · rcases e with name | val | sval | b | ⟨op, right⟩ | ⟨op, left, right⟩ |
        ⟨c, cons, alt⟩ | ⟨params, body⟩ | ⟨fn, args⟩ | elements | ⟨left, index⟩ | pairs
      · simp only [Eval]; exact evalIdentifier_errOk name env hs
      · exact ⟨by simp [errOkElem, errOkObj], hs⟩
      · exact ⟨by simp [errOkElem, errOkObj], hs⟩
      · exact ⟨by simp [errOkElem, errOkObj, nativeBoolToBooleanObject], hs⟩
      · -- prefixExpr
        simp only [Eval]
        cases he : Eval f (exprNode right) env st with
        | panic m => simp [ResOk]
        | timeout => simp [ResOk]
        | ok r st' =>
          dsimp only
          have hr := ih (exprNode right) env st hs
          rw [he] at hr
          by_cases hie : isError r = true
          · rw [if_pos hie]; exact ⟨hr.1, hr.2⟩
          · rw [if_neg hie]
            exact PRes_toEval_ResOk (evalPrefixExpression_errOk op r) hr.2
      · -- infixExpr
        simp only [Eval]
        cases hl : Eval f (exprNode left) env st with
        | panic m => simp [ResOk]
        | timeout => simp [ResOk]
        | ok l st1 =>
          dsimp only
          have hlr := ih (exprNode left) env st hs
          rw [hl] at hlr
          by_cases hie : isError l = true
          · rw [if_pos hie]; exact ⟨hlr.1, hlr.2⟩
          · rw [if_neg hie]
            cases hrr : Eval f (exprNode right) env st1 with
            | panic m => simp [ResOk]
            | timeout => simp [ResOk]
            | ok r st2 =>
              dsimp only
              have hrv := ih (exprNode right) env st1 hlr.2
              rw [hrr] at hrv
              by_cases hie2 : isError r = true
              · rw [if_pos hie2]; exact ⟨hrv.1, hrv.2⟩
              · rw [if_neg hie2]
                exact PRes_toEval_ResOk (evalInfixExpression_errOk op l r) hrv.2
      · -- ifExpr
        simp only [Eval]
        exact evalIfExpression_errOk (fun n st hs => ih n env st hs) c cons alt st hs
      · -- functionLiteral
        exact ⟨by simp [errOkElem, errOkObj], hs⟩
      · -- callExpr
        simp only [Eval]
        cases hf : Eval f (exprNode fn) env st with
        | panic m => simp [ResOk]
        | timeout => simp [ResOk]
        | ok fnv st1 =>
          dsimp only
          have hfr := ih (exprNode fn) env st hs
          rw [hf] at hfr
          by_cases hie : isError fnv = true
          · rw [if_pos hie]; exact ⟨hfr.1, hfr.2⟩
          · rw [if_neg hie]
            cases hargs : evalExpressions (fun e st => Eval f (exprNode e) env st)
                args [] st1 with
            | panic m => simp [ResOk]
            | timeout => simp [ResOk]
            | ok argsv st2 =>
              dsimp only
              have hla := evalExpressions_errOk
                (fun e st hs => ih (exprNode e) env st hs) args [] st1 hfr.2
                (fun o ho => absurd ho (List.not_mem_nil o))
              rw [hargs] at hla
              by_cases hc : argsv.length = 1 ∧ isError (argsv.headD none) = true
              · rw [if_pos hc]
                exact ⟨ListResOk_head hla, hla.2⟩
              · rw [if_neg hc]
                refine applyFunction_errOk
                  (fun body ref st hs => ih (some (.stmt (.blockStmt body))) ref st hs)
                  fnv argsv st2 hla.2 ?_
                rcases hla.1 with hok | ⟨m, rfl⟩
                · exact hok
                · exact absurd ⟨by simp, by simp [isError]⟩ hc
      · -- arrayLiteral
        simp only [Eval]
        cases hargs : evalExpressions (fun e st => Eval f (exprNode e) env st)
            elements [] st with
        | panic m => simp [ResOk]
        | timeout => simp [ResOk]
        | ok elems st' =>
          dsimp only
          have hla := evalExpressions_errOk
            (fun e st hs => ih (exprNode e) env st hs) elements [] st hs
            (fun o ho => absurd ho (List.not_mem_nil o))
          rw [hargs] at hla
          by_cases hc : elems.length = 1 ∧ isError (elems.headD none) = true
          · rw [if_pos hc]
            exact ⟨ListResOk_head hla, hla.2⟩
          · rw [if_neg hc]
            rcases hla.1 with hok | ⟨m, rfl⟩
            · exact ⟨by simpa [errOkElem, errOkObj] using errOkList_of_entriesOk hok,
                hla.2⟩
            · exact absurd ⟨by simp, by simp [isError]⟩ hc
      · -- indexExpr
        simp only [Eval]
        cases hl : Eval f (exprNode left) env st with
        | panic m => simp [ResOk]
        | timeout => simp [ResOk]
        | ok l st1 =>
          dsimp only
          have hlr := ih (exprNode left) env st hs
          rw [hl] at hlr
          by_cases hie : isError l = true
          · rw [if_pos hie]; exact ⟨hlr.1, hlr.2⟩
          · rw [if_neg hie]
            cases hi : Eval f (exprNode index) env st1 with
            | panic m => simp [ResOk]
            | timeout => simp [ResOk]
            | ok i st2 =>
              dsimp only
              have hir := ih (exprNode index) env st1 hlr.2
              rw [hi] at hir
              by_cases hie2 : isError i = true
              · rw [if_pos hie2]; exact ⟨hir.1, hir.2⟩
              · rw [if_neg hie2]
                exact PRes_toEval_ResOk (evalIndexExpression_errOk hlr.1 hir.1) hir.2
      · -- hashLiteral
        simp only [Eval]
        exact evalHashLiteral_errOk (fun e st hs => ih (exprNode e) env st hs)
          pairs [] st hs (by simp [errOkPairs])

theorem c3_witness :
    ResOk (Eval 3 (some (.expr (.arrayLiteral [some (.integerLiteral 1)]))) 0
      newEnvironment) :=
  c3_no_error_inside_arrays_or_hashes 3
    (some (.expr (.arrayLiteral [some (.integerLiteral 1)]))) 0 newEnvironment rfl


end Monkey


namespace Monkey

/-! C5 auxiliary lemmas. -/

theorem tokAt_nil (i : Nat) : tokAt [] i = ⟨token.EOF, ""⟩ := by
  simp [tokAt]

theorem tokAt_cons_zero (x : Token) (l : List Token) : tokAt (x :: l) 0 = x := rfl

theorem stateOf_cons (x : Token) (l : List Token) (errs : List String) :
    stateOf (x :: l) errs = stateOn x l errs := rfl

theorem nextToken_stateOn (c : Token) (l : List Token) (errs : List String) :
    nextToken (stateOn c l errs) = stateOf l errs := by
  cases l <;>
    simp [nextToken, stateOn, stateOf, tokAt, List.head?_eq_getElem?,
      List.get?_eq_getElem?]

theorem tokF_eq (f : AFactor) : tokF f = headTokF f :: tailF f := by
  cases f <;> rfl

theorem prefixFns_headTokF (f : AFactor) :
    prefixParseFns (headTokF f).type = some (handlerF f) := by
  cases f <;> rfl

theorem wrap64_id {v : Int} (h : inInt64 v = true) : wrap64 v = v := by
  simp only [inInt64, Bool.and_eq_true, decide_eq_true_eq] at h
  unfold wrap64
  have h1 : 0 ≤ v + 2 ^ 63 := by omega
  have h2 : v + 2 ^ 63 < 2 ^ 64 := by omega
  rw [Int.emod_eq_of_lt h1 h2]
  omega

theorem dval_nonneg (s : List Char) : 0 ≤ dval s := by
  simp [dval]

theorem digitsVal_isSome :
    ∀ (s : List Char) (acc : Nat), s.all isDigitC = true →
      ∃ n, digitsVal 10 s (some acc) = some n
  | [], acc, _ => ⟨acc, rfl⟩
  | c :: rest, acc, h => by
    simp only [List.all_cons, Bool.and_eq_true] at h
    have hd : c.toNat - '0'.toNat < 10 := by
      have h1 := h.1
      simp only [isDigitC, Bool.and_eq_true, decide_eq_true_eq] at h1
      have h0 : '0'.toNat = 48 := rfl
      omega
    simp only [digitsVal, if_pos hd]
    exact digitsVal_isSome rest _ h.2

theorem parseIntegerLiteralValue_good {s : List Char} (h : goodNum s = true) :
    parseIntegerLiteralValue (String.mk s) = some (dval s) := by
  simp only [goodNum, Bool.and_eq_true, Bool.or_eq_true, decide_eq_true_eq,
    bne_iff_ne, ne_eq] at h
  obtain ⟨⟨⟨hne, hdig⟩, hzero⟩, hbound⟩ := h
  unfold parseIntegerLiteralValue
  have htl : (String.mk s).toList = s := rfl
  rw [htl]
  split
  · simp_all
  · simp [dval, digitsVal]
  · exfalso
    rename_i rest heq
    rcases hzero with hz | hz
    · injection hz with h1 h2
      exact heq h2
    · exact hz rfl
  · obtain ⟨n, hn⟩ := digitsVal_isSome s 0 hdig
    rw [hn]
    dsimp only
    have hdv : dval s = (n : Int) := by simp [dval, hn]
    rw [if_pos (by rw [hdv] at hbound; exact_mod_cast hbound)]
    rw [hdv]

end Monkey

namespace Monkey

theorem stateOn_curToken (c : Token) (l : List Token) (e : List String) :
    (stateOn c l e).curToken = c := rfl

theorem stateOn_peekToken (c : Token) (l : List Token) (e : List String) :
    (stateOn c l e).peekToken = tokAt l 0 := rfl

theorem peekPrecedence_stateOn (c : Token) (l : List Token) (e : List String) :
    peekPrecedence (stateOn c l e) = nextPrec (tokAt l 0) := rfl

theorem curPrecedence_stateOn (c : Token) (l : List Token) (e : List String) :
    curPrecedence (stateOn c l e) = nextPrec c := rfl

theorem loopStop (F p : Nat) (left : Option Expr) (c : Token) (rest : List Token)
    (errs : List String) (h : nextPrec (tokAt rest 0) ≤ p) (hF : 1 ≤ F) :
    parseExpressionLoop F p left (stateOn c rest errs) = (left, stateOn c rest errs) := by
  obtain ⟨F', rfl⟩ : ∃ F', F = F' + 1 := ⟨F - 1, by omega⟩
  simp only [parseExpressionLoop]
  rw [if_neg]
  rintro ⟨-, hlt⟩
  rw [peekPrecedence_stateOn] at hlt
  omega

theorem newParser_stateOf (l : List Token) : newParser l = stateOf l [] := by
  cases l with
  | nil => simp [newParser, nextToken, stateOf, stateOn, tokAt]
  | cons x xs =>
    cases xs <;>
      simp [newParser, nextToken, stateOf, stateOn, tokAt, List.head?_eq_getElem?,
        List.get?_eq_getElem?]

end Monkey

namespace Monkey

/-! More C5 helpers: head-precedence bounds of chain renderings, and
operator-count bounds. -/

theorem nextPrec_tokM (rs : MChain) (L : List Token)
    (h : nextPrec (tokAt L 0) ≤ PRODUCT) :
    nextPrec (tokAt (tokMChain rs ++ L) 0) ≤ PRODUCT := by
  cases rs with
  | nilM => simpa [tokMChain] using h
  | consM op f rs' =>
    cases op <;> simp [tokMChain, tokAt, nextPrec, precedences, token.Asterisk,
      token.Slash, token.Equal, token.NotEqual, token.LessThan, token.GreaterThan,
      token.Plus, token.Minus, PRODUCT]

theorem nextPrec_tokA (rs : AChain) (L : List Token)
    (h : nextPrec (tokAt L 0) ≤ SUM) :
    nextPrec (tokAt (tokAChain rs ++ L) 0) ≤ SUM := by
  cases rs with
  | nilA => simpa [tokAChain] using h
  | consA op t rs' =>
    cases op <;> simp [tokAChain, tokAt, nextPrec, precedences, token.Plus,
      token.Minus, token.Equal, token.NotEqual, token.LessThan, token.GreaterThan,
      SUM]

theorem szF_pos (f : AFactor) : 1 ≤ szF f := by
  cases f <;> simp [szF]

theorem lenM_lt_szM : ∀ rs : MChain, lenM rs < szMChain rs
  | .nilM => by simp [lenM, szMChain]
  | .consM _ f rs => by
    have := lenM_lt_szM rs
    simp only [lenM, szMChain]
    omega

theorem lenA_lt_szA : ∀ rs : AChain, lenA rs < szAChain rs
  | .nilA => by simp [lenA, szAChain]
  | .consA _ t rs => by
    have := lenA_lt_szA rs
    simp only [lenA, szAChain]
    omega

end Monkey

namespace Monkey

mutual

theorem coreF (f : AFactor) (F : Nat) (L : List Token) (errs : List String)
    (hwf : wfF f = true) (hL : nextPrec (tokAt L 0) ≤ PRODUCT) (hsz : szF f ≤ F) :
    runPrefixFn F (handlerF f) (stateOn (headTokF f) (tailF f ++ L) errs) =
      (some (exprOfF f), stateOn (lastF f) L errs) := by
  cases f with
  | num s =>
    obtain ⟨F1, rfl⟩ : ∃ F1, F = F1 + 1 := ⟨F - 1, by simp [szF] at hsz; omega⟩
    have hv : parseIntegerLiteralValue (String.mk s) = some (dval s) :=
      parseIntegerLiteralValue_good (by simpa [wfF] using hwf)
    simp only [handlerF, headTokF, tailF, List.nil_append, runPrefixFn,
      stateOn_curToken]
    rw [hv]
    rfl
  | neg f1 =>
    obtain ⟨F1, rfl⟩ : ∃ F1, F = F1 + 1 := ⟨F - 1, by simp [szF] at hsz; omega⟩
    simp only [handlerF, headTokF, tailF, runPrefixFn, stateOn_curToken]
    rw [nextToken_stateOn]
    rw [parseFAt f1 F1 UNARY L errs (by simpa [wfF] using hwf) hL
      (le_trans hL (by simp [PRODUCT, UNARY]))
      (by simp [szF] at hsz; omega)]
    rfl
  | paren e =>
    obtain ⟨F1, rfl⟩ : ∃ F1, F = F1 + 1 := ⟨F - 1, by simp [szF] at hsz; omega⟩
    obtain ⟨F2, rfl⟩ : ∃ F2, F1 = F2 + 1 := ⟨F1 - 1, by simp [szF] at hsz; omega⟩
    simp only [handlerF, headTokF, tailF, runPrefixFn, parseGroupedExpression]
    rw [nextToken_stateOn]
    simp only [List.append_assoc, List.cons_append, List.nil_append]
    rw [parseSAt e F2 LOWEST (⟨token.RightParen, ")"⟩ :: L) errs
      (by simpa [wfF] using hwf)
      (by simp [tokAt, nextPrec, precedences, token.RightParen, token.Equal,
        token.NotEqual, token.LessThan, token.GreaterThan, token.Plus,
        token.Minus, token.Slash, token.Asterisk, token.LeftParen,
        token.LeftBracket, LOWEST])
      (by simp [LOWEST, SUM]) (by simp [szF] at hsz; omega)]
    simp only [stateOn_peekToken, tokAt_cons_zero]
    rw [if_neg (by simp)]
    rw [nextToken_stateOn, stateOf_cons]
    simp only [exprOfF, lastF]

theorem parseFAt (f : AFactor) (F p : Nat) (rest : List Token) (errs : List String)
    (hwf : wfF f = true) (h2 : nextPrec (tokAt rest 0) ≤ PRODUCT)
    (h3 : nextPrec (tokAt rest 0) ≤ p) (hsz : szF f + 2 ≤ F) :
    parseExpression F p (stateOf (tokF f ++ rest) errs) =
      (some (exprOfF f), stateOn (lastF f) rest errs) := by
  obtain ⟨F1, rfl⟩ : ∃ F1, F = F1 + 1 := ⟨F - 1, by omega⟩
  rw [tokF_eq, List.cons_append, stateOf_cons]
  simp only [parseExpression, stateOn_curToken]
  rw [prefixFns_headTokF]
  dsimp only
  rw [coreF f F1 rest errs hwf h2 (by omega)]
  exact loopStop F1 p _ _ _ _ h3 (by have := szF_pos f; omega)

theorem parseMTrans (rs : MChain) (F p : Nat) (left : Expr) (c : Token)
    (L : List Token) (errs : List String)
    (hwf : wfMChain rs = true) (hL : nextPrec (tokAt L 0) ≤ PRODUCT)
    (hp : p < PRODUCT) (hsz : szMChain rs ≤ F) :
    parseExpressionLoop F p (some left) (stateOn c (tokMChain rs ++ L) errs) =
      parseExpressionLoop (F - lenM rs) p (some (exprOfMChain left rs))
        (stateOn (lastMChain c rs) L errs) := by
  cases rs with
  | nilM => simp [tokMChain, lenM, exprOfMChain, lastMChain]
  | consM op f rs1 =>
    have hwf1 : wfF f = true := by simp [wfMChain] at hwf; exact hwf.1
    have hwf2 : wfMChain rs1 = true := by simp [wfMChain] at hwf; exact hwf.2
    simp only [szMChain] at hsz
    obtain ⟨F1, rfl⟩ : ∃ F1, F = F1 + 1 := ⟨F - 1, by omega⟩
    obtain ⟨G, hF1⟩ : ∃ G, F1 = G + 1 := ⟨F1 - 1, by omega⟩
    have hprec : nextPrec (if op then (⟨token.Asterisk, "*"⟩ : Token)
        else ⟨token.Slash, "/"⟩) = PRODUCT := by
      cases op <;> simp [nextPrec, precedences, token.Asterisk, token.Slash,
        token.Equal, token.NotEqual, token.LessThan, token.GreaterThan,
        token.Plus, token.Minus]
    have hsem : ((if op then (⟨token.Asterisk, "*"⟩ : Token)
        else ⟨token.Slash, "/"⟩)).type ≠ token.Semicolon := by
      cases op <;> simp [token.Asterisk, token.Slash, token.Semicolon]
    have hinf : infixParseFns ((if op then (⟨token.Asterisk, "*"⟩ : Token)
        else ⟨token.Slash, "/"⟩)).type = some .parseInfixExpression := by
      cases op <;> rfl
    have hlit : ((if op then (⟨token.Asterisk, "*"⟩ : Token)
        else ⟨token.Slash, "/"⟩)).literal = (if op then "*" else "/") := by
      cases op <;> rfl
    simp only [tokMChain, List.cons_append, List.append_assoc]
    simp only [parseExpressionLoop, stateOn_peekToken, peekPrecedence_stateOn,
      tokAt_cons_zero]
    rw [if_pos ⟨hsem, by rw [hprec]; exact hp⟩, hinf]
    dsimp only
    rw [nextToken_stateOn, stateOf_cons]
    rw [hF1]
    simp only [runInfixFn, stateOn_curToken, curPrecedence_stateOn]
    rw [hprec, hlit, nextToken_stateOn]
    rw [parseFAt f G PRODUCT (tokMChain rs1 ++ L) errs hwf1
      (nextPrec_tokM rs1 L hL) (nextPrec_tokM rs1 L hL) (by omega)]
    dsimp only
    rw [parseMTrans rs1 (G + 1) p
      (.infixExpr (if op then "*" else "/") (some left) (some (exprOfF f)))
      (lastF f) L errs hwf2 hL hp (by omega)]
    have hfe : G + 1 + 1 - lenM (MChain.consM op f rs1) = G + 1 - lenM rs1 := by
      simp [lenM]
    rw [hfe]
    simp only [exprOfMChain, lastMChain]

theorem parsePAt (t : AProd) (F p : Nat) (rest : List Token) (errs : List String)
    (hwf : wfP t = true) (h2 : nextPrec (tokAt rest 0) ≤ p) (hp : p < PRODUCT)
    (hsz : szP t ≤ F) :
    parseExpression F p (stateOf (tokP t ++ rest) errs) =
      (some (exprOfP t), stateOn (lastP t) rest errs) := by
  obtain ⟨f, rs⟩ := t
  have hwf1 : wfF f = true := by simp [wfP] at hwf; exact hwf.1
  have hwf2 : wfMChain rs = true := by simp [wfP] at hwf; exact hwf.2
  simp only [szP] at hsz
  obtain ⟨F1, rfl⟩ : ∃ F1, F = F1 + 1 := ⟨F - 1, by omega⟩
  have hrest : nextPrec (tokAt rest 0) ≤ PRODUCT := by omega
  simp only [tokP, List.append_assoc]
  rw [tokF_eq, List.cons_append, stateOf_cons]
  simp only [parseExpression, stateOn_curToken]
  rw [prefixFns_headTokF]
  dsimp only
  rw [coreF f F1 (tokMChain rs ++ rest) errs hwf1
    (nextPrec_tokM rs rest hrest) (by omega)]
  dsimp only
  rw [parseMTrans rs F1 p (exprOfF f) (lastF f) rest errs hwf2 hrest hp
    (by omega)]
  rw [loopStop _ p _ _ _ _ h2 (by have := lenM_lt_szM rs; omega)]
  simp only [exprOfP, lastP]

theorem parseATrans (rs : AChain) (F p : Nat) (left : Expr) (c : Token)
    (L : List Token) (errs : List String)
    (hwf : wfAChain rs = true) (hL : nextPrec (tokAt L 0) ≤ SUM)
    (hp : p < SUM) (hsz : szAChain rs ≤ F) :
    parseExpressionLoop F p (some left) (stateOn c (tokAChain rs ++ L) errs) =
      parseExpressionLoop (F - lenA rs) p (some (exprOfAChain left rs))
        (stateOn (lastAChain c rs) L errs) := by
  cases rs with
  | nilA => simp [tokAChain, lenA, exprOfAChain, lastAChain]
  | consA op t rs1 =>
    have hwf1 : wfP t = true := by simp [wfAChain] at hwf; exact hwf.1
    have hwf2 : wfAChain rs1 = true := by simp [wfAChain] at hwf; exact hwf.2
    simp only [szAChain] at hsz
    obtain ⟨F1, rfl⟩ : ∃ F1, F = F1 + 1 := ⟨F - 1, by omega⟩
    obtain ⟨G, hF1⟩ : ∃ G, F1 = G + 1 := ⟨F1 - 1, by omega⟩
    have hprec : nextPrec (if op then (⟨token.Plus, "+"⟩ : Token)
        else ⟨token.Minus, "-"⟩) = SUM := by
      cases op <;> simp [nextPrec, precedences, token.Plus, token.Minus,
        token.Equal, token.NotEqual, token.LessThan, token.GreaterThan]
    have hsem : ((if op then (⟨token.Plus, "+"⟩ : Token)
        else ⟨token.Minus, "-"⟩)).type ≠ token.Semicolon := by
      cases op <;> simp [token.Plus, token.Minus, token.Semicolon]
    have hinf : infixParseFns ((if op then (⟨token.Plus, "+"⟩ : Token)
        else ⟨token.Minus, "-"⟩)).type = some .parseInfixExpression := by
      cases op <;> rfl
    have hlit : ((if op then (⟨token.Plus, "+"⟩ : Token)
        else ⟨token.Minus, "-"⟩)).literal = (if op then "+" else "-") := by
      cases op <;> rfl
    simp only [tokAChain, List.cons_append, List.append_assoc]
    simp only [parseExpressionLoop, stateOn_peekToken, peekPrecedence_stateOn,
      tokAt_cons_zero]
    rw [if_pos ⟨hsem, by rw [hprec]; exact hp⟩, hinf]
    dsimp only
    rw [nextToken_stateOn, stateOf_cons]
    rw [hF1]
    simp only [runInfixFn, stateOn_curToken, curPrecedence_stateOn]
    rw [hprec, hlit, nextToken_stateOn]
    rw [parsePAt t G SUM (tokAChain rs1 ++ L) errs hwf1
      (nextPrec_tokA rs1 L hL) (by simp [SUM, PRODUCT]) (by omega)]
    dsimp only
    rw [parseATrans rs1 (G + 1) p
      (.infixExpr (if op then "+" else "-") (some left) (some (exprOfP t)))
      (lastP t) L errs hwf2 hL hp (by omega)]
    have hfe : G + 1 + 1 - lenA (AChain.consA op t rs1) = G + 1 - lenA rs1 := by
      simp [lenA]
    rw [hfe]
    simp only [exprOfAChain, lastAChain]

theorem parseSAt (e : ASum) (F p : Nat) (rest : List Token) (errs : List String)
    (hwf : wfS e = true) (h2 : nextPrec (tokAt rest 0) ≤ p) (hp : p < SUM)
    (hsz : szS e ≤ F) :
    parseExpression F p (stateOf (tokS e ++ rest) errs) =
      (some (exprOfS e), stateOn (lastS e) rest errs) := by
  obtain ⟨t, rsA⟩ := e
  obtain ⟨f, rsM⟩ := t
  have hwf1 : wfF f = true := by simp [wfS, wfP] at hwf; exact hwf.1.1
  have hwfM : wfMChain rsM = true := by simp [wfS, wfP] at hwf; exact hwf.1.2
  have hwfA : wfAChain rsA = true := by simp [wfS, wfP] at hwf; exact hwf.2
  simp only [szS, szP] at hsz
  obtain ⟨F1, rfl⟩ : ∃ F1, F = F1 + 1 := ⟨F - 1, by omega⟩
  have hrest : nextPrec (tokAt rest 0) ≤ SUM := by omega
  have hA : nextPrec (tokAt (tokAChain rsA ++ rest) 0) ≤ SUM :=
    nextPrec_tokA rsA rest hrest
  have hAP : nextPrec (tokAt (tokAChain rsA ++ rest) 0) ≤ PRODUCT := by
    simp [SUM] at hA; simp [PRODUCT]; omega
  simp only [tokS, tokP, List.append_assoc]
  rw [tokF_eq, List.cons_append, stateOf_cons]
  simp only [parseExpression, stateOn_curToken]
  rw [prefixFns_headTokF]
  dsimp only
  rw [coreF f F1 (tokMChain rsM ++ (tokAChain rsA ++ rest)) errs hwf1
    (nextPrec_tokM rsM _ hAP) (by omega)]
  dsimp only
  rw [parseMTrans rsM F1 p (exprOfF f) (lastF f) (tokAChain rsA ++ rest) errs
    hwfM hAP (by simp [SUM, PRODUCT] at hp ⊢; omega) (by omega)]
  rw [parseATrans rsA (F1 - lenM rsM) p (exprOfMChain (exprOfF f) rsM)
    (lastMChain (lastF f) rsM) rest errs hwfA hrest hp
    (by have := lenM_lt_szM rsM; omega)]
  rw [loopStop _ p _ _ _ _ h2
    (by have := lenM_lt_szM rsM; have := lenA_lt_szA rsA; omega)]
  simp only [exprOfS, exprOfP, lastS, lastP]

end

end Monkey

namespace Monkey

/-! C5 evaluation-side helpers: the integer infix operations on
concrete operator strings. -/

theorem infix_int_int (op : String) (a b : Int) :
    evalInfixExpression op (some (.integer a)) (some (.integer b)) =
      evalIntegerInfixExpression op (.integer a) (.integer b) := by
  simp [evalInfixExpression, objType]

theorem intInfix_add (a b : Int) :
    evalIntegerInfixExpression "+" (.integer a) (.integer b) =
      .ok (some (.integer (wrap64 (a + b)))) := rfl

theorem intInfix_sub (a b : Int) :
    evalIntegerInfixExpression "-" (.integer a) (.integer b) =
      .ok (some (.integer (wrap64 (a - b)))) := rfl

theorem intInfix_mul (a b : Int) :
    evalIntegerInfixExpression "*" (.integer a) (.integer b) =
      .ok (some (.integer (wrap64 (a * b)))) := rfl

theorem intInfix_div (a b : Int) (h : b ≠ 0) :
    evalIntegerInfixExpression "/" (.integer a) (.integer b) =
      .ok (some (.integer (wrap64 (Int.tdiv a b)))) := by
  simp only [evalIntegerInfixExpression]
  rw [if_neg (by decide), if_neg (by decide), if_neg (by decide),
    if_pos trivial, if_neg h]

end Monkey

namespace Monkey

mutual

theorem evalFOk (f : AFactor) (hwf : wfF f = true) (hok : okF f = true) :
    inInt64 (valF f) = true ∧
    ∀ (F env : Nat) (st : EnvStore), szF f ≤ F →
      Eval F (exprNode (some (exprOfF f))) env st =
        .ok (some (.integer (valF f))) st := by
  cases f with
  | num s =>
    have hg : goodNum s = true := by simpa [wfF] using hwf
    simp only [goodNum, Bool.and_eq_true, Bool.or_eq_true, decide_eq_true_eq] at hg
    have hb : dval s ≤ (maxInt64 : Int) := hg.2
    have h0 := dval_nonneg s
    have hm : (maxInt64 : Int) = 2 ^ 63 - 1 := by norm_num [maxInt64]
    constructor
    · simp only [valF, inInt64, decide_eq_true_eq]
      omega
    · intro F env st hsz
      obtain ⟨F1, rfl⟩ : ∃ F1, F = F1 + 1 := ⟨F - 1, by simp [szF] at hsz; omega⟩
      rfl
  | neg f1 =>
    have hwf1 : wfF f1 = true := by simpa [wfF] using hwf
    simp only [okF, Bool.and_eq_true] at hok
    obtain ⟨hin1, hev1⟩ := evalFOk f1 hwf1 hok.1
    have hneg : inInt64 (-valF f1) = true := hok.2
    constructor
    · simpa [valF] using hneg
    · intro F env st hsz
      simp only [szF] at hsz
      obtain ⟨F1, rfl⟩ : ∃ F1, F = F1 + 1 := ⟨F - 1, by omega⟩
      show Eval (F1 + 1)
        (some (.expr (.prefixExpr "-" (some (exprOfF f1))))) env st = _
      simp only [Eval]
      rw [hev1 F1 env st (by omega)]
      dsimp only
      have hpre : evalPrefixExpression "-" (some (.integer (valF f1))) =
          .ok (some (.integer (wrap64 (-valF f1)))) := rfl
      rw [hpre, wrap64_id hneg]
      rfl
  | paren e =>
    have hwf1 : wfS e = true := by simpa [wfF] using hwf
    have hok1 : okS e = true := by simpa [okF] using hok
    obtain ⟨hin1, hev1⟩ := evalSOk e hwf1 hok1
    refine ⟨by simpa [valF] using hin1, ?_⟩
    intro F env st hsz
    simp only [szF] at hsz
    simp only [exprOfF, valF]
    exact hev1 F env st (by omega)

theorem evalMOk (rs : MChain) (nL : Nat) (left : Expr) (acc : Int)
    (hwf : wfMChain rs = true) (hok : okMChain acc rs = true)
    (hacc : inInt64 acc = true)
    (hleft : ∀ (F env : Nat) (st : EnvStore), nL ≤ F →
      Eval F (exprNode (some left)) env st = .ok (some (.integer acc)) st) :
    inInt64 (valMChain acc rs) = true ∧
    ∀ (F env : Nat) (st : EnvStore), nL + szMChain rs ≤ F →
      Eval F (exprNode (some (exprOfMChain left rs))) env st =
        .ok (some (.integer (valMChain acc rs))) st := by
  cases rs with
  | nilM =>
    refine ⟨by simpa [valMChain] using hacc, ?_⟩
    intro F env st hsz
    simp only [szMChain] at hsz
    simp only [exprOfMChain, valMChain]
    exact hleft F env st (by omega)
  | consM op f rs1 =>
    simp only [wfMChain, Bool.and_eq_true] at hwf
    simp only [okMChain, Bool.and_eq_true] at hok
    obtain ⟨⟨hokf, hcond⟩, hokrs⟩ := hok
    obtain ⟨hinf, hevf⟩ := evalFOk f hwf.1 hokf
    cases op with
    | true =>
      simp only [if_pos trivial] at hcond hokrs
      have hnl : ∀ (F env : Nat) (st : EnvStore), nL + szF f + 1 ≤ F →
          Eval F (exprNode (some (.infixExpr "*" (some left) (some (exprOfF f)))))
            env st = .ok (some (.integer (acc * valF f))) st := by
        intro F env st h
        obtain ⟨F1, rfl⟩ : ∃ F1, F = F1 + 1 := ⟨F - 1, by omega⟩
        show Eval (F1 + 1)
          (some (.expr (.infixExpr "*" (some left) (some (exprOfF f))))) env st = _
        simp only [Eval]
        rw [hleft F1 env st (by omega)]
        dsimp only
        rw [hevf F1 env st (by omega)]
        dsimp only
        rw [infix_int_int, intInfix_mul, wrap64_id hcond]
        rfl
      obtain ⟨hin, hev⟩ := evalMOk rs1 (nL + szF f + 1) _ _ hwf.2 hokrs hcond hnl
      constructor
      · simpa [valMChain] using hin
      · intro F env st hsz
        simp only [szMChain] at hsz
        simp only [exprOfMChain, valMChain, if_pos trivial]
        exact hev F env st (by omega)
    | false =>
      simp only [Bool.false_eq_true, if_false] at hcond hokrs
      simp only [Bool.and_eq_true, Bool.not_eq_true, decide_eq_false_iff_not] at hcond
      have hdz : valF f ≠ 0 := by
        have := hcond.1; simpa using this
      have hin2 : inInt64 (Int.tdiv acc (valF f)) = true := hcond.2
      have hnl : ∀ (F env : Nat) (st : EnvStore), nL + szF f + 1 ≤ F →
          Eval F (exprNode (some (.infixExpr "/" (some left) (some (exprOfF f)))))
            env st = .ok (some (.integer (Int.tdiv acc (valF f)))) st := by
        intro F env st h
        obtain ⟨F1, rfl⟩ : ∃ F1, F = F1 + 1 := ⟨F - 1, by omega⟩
        show Eval (F1 + 1)
          (some (.expr (.infixExpr "/" (some left) (some (exprOfF f))))) env st = _
        simp only [Eval]
        rw [hleft F1 env st (by omega)]
        dsimp only
        rw [hevf F1 env st (by omega)]
        dsimp only
        rw [infix_int_int, intInfix_div _ _ hdz, wrap64_id hin2]
        rfl
      obtain ⟨hin, hev⟩ := evalMOk rs1 (nL + szF f + 1) _ _ hwf.2 hokrs hin2 hnl
      constructor
      · simpa [valMChain] using hin
      · intro F env st hsz
        simp only [szMChain] at hsz
        simp only [exprOfMChain, valMChain, Bool.false_eq_true, if_false]
        exact hev F env st (by omega)

theorem evalPOk (t : AProd) (hwf : wfP t = true) (hok : okP t = true) :
    inInt64 (valP t) = true ∧
    ∀ (F env : Nat) (st : EnvStore), szP t ≤ F →
      Eval F (exprNode (some (exprOfP t))) env st =
        .ok (some (.integer (valP t))) st := by
  obtain ⟨f, rs⟩ := t
  simp only [wfP, Bool.and_eq_true] at hwf
  simp only [okP, Bool.and_eq_true] at hok
  obtain ⟨hinf, hevf⟩ := evalFOk f hwf.1 hok.1
  obtain ⟨hin, hev⟩ := evalMOk rs (szF f) (exprOfF f) (valF f) hwf.2 hok.2
    hinf hevf
  refine ⟨by simpa [valP] using hin, ?_⟩
  intro F env st hsz
  simp only [szP] at hsz
  simp only [exprOfP, valP]
  exact hev F env st (by omega)

theorem evalAOk (rs : AChain) (nL : Nat) (left : Expr) (acc : Int)
    (hwf : wfAChain rs = true) (hok : okAChain acc rs = true)
    (hacc : inInt64 acc = true)
    (hleft : ∀ (F env : Nat) (st : EnvStore), nL ≤ F →
      Eval F (exprNode (some left)) env st = .ok (some (.integer acc)) st) :
    inInt64 (valAChain acc rs) = true ∧
    ∀ (F env : Nat) (st : EnvStore), nL + szAChain rs ≤ F →
      Eval F (exprNode (some (exprOfAChain left rs))) env st =
        .ok (some (.integer (valAChain acc rs))) st := by
  cases rs with
  | nilA =>
    refine ⟨by simpa [valAChain] using hacc, ?_⟩
    intro F env st hsz
    simp only [szAChain] at hsz
    simp only [exprOfAChain, valAChain]
    exact hleft F env st (by omega)
  | consA op t rs1 =>
    simp only [wfAChain, Bool.and_eq_true] at hwf
    simp only [okAChain, Bool.and_eq_true] at hok
    obtain ⟨⟨hokt, hcond⟩, hokrs⟩ := hok
    obtain ⟨hint, hevt⟩ := evalPOk t hwf.1 hokt
    cases op with
    | true =>
      simp only [if_pos trivial] at hcond hokrs
      have hnl : ∀ (F env : Nat) (st : EnvStore), nL + szP t + 1 ≤ F →
          Eval F (exprNode (some (.infixExpr "+" (some left) (some (exprOfP t)))))
            env st = .ok (some (.integer (acc + valP t))) st := by
        intro F env st h
        obtain ⟨F1, rfl⟩ : ∃ F1, F = F1 + 1 := ⟨F - 1, by omega⟩
        show Eval (F1 + 1)
          (some (.expr (.infixExpr "+" (some left) (some (exprOfP t))))) env st = _
        simp only [Eval]
        rw [hleft F1 env st (by omega)]
        dsimp only
        rw [hevt F1 env st (by omega)]
        dsimp only
        rw [infix_int_int, intInfix_add, wrap64_id hcond]
        rfl
      obtain ⟨hin, hev⟩ := evalAOk rs1 (nL + szP t + 1) _ _ hwf.2 hokrs hcond hnl
      constructor
      · simpa [valAChain] using hin
      · intro F env st hsz
        simp only [szAChain] at hsz
        simp only [exprOfAChain, valAChain, if_pos trivial]
        exact hev F env st (by omega)
    | false =>
      simp only [Bool.false_eq_true, if_false] at hcond hokrs
      have hnl : ∀ (F env : Nat) (st : EnvStore), nL + szP t + 1 ≤ F →
          Eval F (exprNode (some (.infixExpr "-" (some left) (some (exprOfP t)))))
            env st = .ok (some (.integer (acc - valP t))) st := by
        intro F env st h
        obtain ⟨F1, rfl⟩ : ∃ F1, F = F1 + 1 := ⟨F - 1, by omega⟩
        show Eval (F1 + 1)
          (some (.expr (.infixExpr "-" (some left) (some (exprOfP t))))) env st = _
        simp only [Eval]
        rw [hleft F1 env st (by omega)]
        dsimp only
        rw [hevt F1 env st (by omega)]
        dsimp only
        rw [infix_int_int, intInfix_sub, wrap64_id hcond]
        rfl
      obtain ⟨hin, hev⟩ := evalAOk rs1 (nL + szP t + 1) _ _ hwf.2 hokrs hcond hnl
      constructor
      · simpa [valAChain] using hin
      · intro F env st hsz
        simp only [szAChain] at hsz
        simp only [exprOfAChain, valAChain, Bool.false_eq_true, if_false]
        exact hev F env st (by omega)

theorem evalSOk (e : ASum) (hwf : wfS e = true) (hok : okS e = true) :
    inInt64 (valS e) = true ∧
    ∀ (F env : Nat) (st : EnvStore), szS e ≤ F →
      Eval F (exprNode (some (exprOfS e))) env st =
        .ok (some (.integer (valS e))) st := by
  obtain ⟨t, rs⟩ := e
  simp only [wfS, Bool.and_eq_true] at hwf
  simp only [okS, Bool.and_eq_true] at hok
  obtain ⟨hint, hevt⟩ := evalPOk t hwf.1 hok.1
  obtain ⟨hin, hev⟩ := evalAOk rs (szP t) (exprOfP t) (valP t) hwf.2 hok.2
    hint hevt
  refine ⟨by simpa [valS] using hin, ?_⟩
  intro F env st hsz
  simp only [szS] at hsz
  simp only [exprOfS, valS]
  exact hev F env st (by omega)

end

end Monkey

namespace Monkey

/-! C5 program-level glue: a full-program parse of a rendered tree. -/

theorem tokAt_tokS_zero (e : ASum) : tokAt (tokS e) 0 = headTokF (firstFS e) := by
  obtain ⟨⟨f, rsM⟩, rsA⟩ := e
  simp [tokS, tokP, firstFS, tokF_eq, List.cons_append, tokAt_cons_zero]

theorem headTokF_type (f : AFactor) :
    (headTokF f).type = token.Integer ∨ (headTokF f).type = token.Minus ∨
      (headTokF f).type = token.LeftParen := by
  cases f <;> simp [headTokF]

theorem parseTokens_tokS (e : ASum) (F : Nat) (hwf : wfS e = true)
    (hsz : szS e + 3 ≤ F) :
    parseTokens F (tokS e) = ([Stmt.exprStmt (some (exprOfS e))], []) := by
  obtain ⟨F1, rfl⟩ : ∃ F1, F = F1 + 1 := ⟨F - 1, by omega⟩
  obtain ⟨F2, hF1⟩ : ∃ F2, F1 = F2 + 1 := ⟨F1 - 1, by omega⟩
  obtain ⟨F3, hF2⟩ : ∃ F3, F2 = F3 + 1 := ⟨F2 - 1, by omega⟩
  have hcur : (stateOf (tokS e) []).curToken = headTokF (firstFS e) := by
    rw [show (stateOf (tokS e) []).curToken = tokAt (tokS e) 0 from rfl,
      tokAt_tokS_zero]
  have hty := headTokF_type (firstFS e)
  have hstmt : parseStatement F1 (stateOf (tokS e) []) =
      (some (Stmt.exprStmt (some (exprOfS e))), stateOn (lastS e) [] []) := by
    rw [hF1]
    simp only [parseStatement, hcur]
    rw [if_neg (by rcases hty with h | h | h <;>
      simp [h, token.Integer, token.Minus, token.LeftParen, token.Let])]
    rw [if_neg (by rcases hty with h | h | h <;>
      simp [h, token.Integer, token.Minus, token.LeftParen, token.Return])]
    rw [hF2]
    simp only [parseExpressionStatement]
    rw [← List.append_nil (tokS e)]
    rw [parseSAt e F3 LOWEST [] [] hwf (by decide) (by decide) (by omega)]
    dsimp only
    rw [if_neg (by simp [stateOn_peekToken, tokAt_nil, token.EOF,
      token.Semicolon])]
  simp only [parseTokens, newParser_stateOf, parseProgramLoop]
  rw [if_pos (by rw [hcur]; rcases hty with h | h | h <;>
    simp [h, token.Integer, token.Minus, token.LeftParen, token.EOF])]
  rw [hstmt]
  dsimp only
  rw [nextToken_stateOn]
  rw [hF1]
  simp only [parseProgramLoop]
  rw [if_neg (by simp [stateOf, stateOn_curToken, tokAt_nil, token.EOF])]
  simp [stateOf, stateOn]

end Monkey

namespace Monkey

/-- Evaluating a single-expression-statement program in a fresh
environment yields the expression's value and leaves the store
untouched. -/
theorem runProgram_exprStmt (e : ASum) (F : Nat) (hwf : wfS e = true)
    (hok : okS e = true) (hsz : szS e + 2 ≤ F) :
    runProgram F [Stmt.exprStmt (some (exprOfS e))] =
      .ok (some (.integer (valS e))) newEnvironment := by
  obtain ⟨F1, rfl⟩ : ∃ F1, F = F1 + 1 := ⟨F - 1, by omega⟩
  obtain ⟨F2, hF1⟩ : ∃ F2, F1 = F2 + 1 := ⟨F1 - 1, by omega⟩
  have hev : Eval F1 (some (.stmt (.exprStmt (some (exprOfS e))))) 0 newEnvironment
      = .ok (some (.integer (valS e))) newEnvironment := by
    rw [hF1]
    simp only [Eval]
    exact (evalSOk e hwf hok).2 F2 0 newEnvironment (by omega)
  simp only [runProgram, Eval, evalProgram]
  rw [hev]

set_option maxRecDepth 10000 in
/-- C5: For every integer expression built from `+ - * /`, decimal
literals and parentheses — rendered as the token sequence of its
layered-grammar tree — parsing yields exactly one expression statement
holding the left-nested infix AST, and evaluating that program yields
the Integer holding the expression's standard left-to-right,
precedence-respecting value with truncating integer division, provided
every literal is a legal decimal int64 literal and the expression stays
within int64 (no zero divisor, every intermediate value in range;
division by zero instead panics, settled under C1).  In particular the
spec example `(5 + 10 * 2 + 15 / 3) * 2 + -10` parses and evaluates to
Integer 50. -/
theorem c5_integer_arithmetic (e : ASum) (Fp Fe : Nat)
    (hwf : wfS e = true) (hok : okS e = true)
    (hp : szS e + 3 ≤ Fp) (he : szS e + 2 ≤ Fe) :
    parseTokens Fp (tokS e) = ([Stmt.exprStmt (some (exprOfS e))], []) ∧
    runProgram Fe (parseTokens Fp (tokS e)).1 =
      .ok (some (.integer (valS e))) newEnvironment ∧
    run 99 99 "(5 + 10 * 2 + 15 / 3) * 2 + -10" =
      .ok (some (.integer 50)) newEnvironment := by
  have h1 := parseTokens_tokS e Fp hwf hp
  refine ⟨h1, ?_, rfl⟩
  rw [h1]
  exact runProgram_exprStmt e Fe hwf hok he

theorem c5_witness :
    (wfS c5ExampleTree = true ∧ okS c5ExampleTree = true ∧
      szS c5ExampleTree + 3 ≤ 999 ∧ szS c5ExampleTree + 2 ≤ 999) ∧
    valS c5ExampleTree = 50 ∧
    (parseTokens 999 (tokS c5ExampleTree) =
        ([Stmt.exprStmt (some (exprOfS c5ExampleTree))], []) ∧
      runProgram 999 (parseTokens 999 (tokS c5ExampleTree)).1 =
        .ok (some (.integer (valS c5ExampleTree))) newEnvironment ∧
      run 99 99 "(5 + 10 * 2 + 15 / 3) * 2 + -10" =
        .ok (some (.integer 50)) newEnvironment) :=
  ⟨⟨by decide, by decide, by decide, by decide⟩, by decide,
    c5_integer_arithmetic c5ExampleTree 999 999 (by decide) (by decide)
      (by decide) (by decide)⟩

end Monkey
